import Mathlib

/-!
Verification development for the view-validation core of the
AI-Data-Analysis-Chatbot-Feature repository.

The Python modules `schema_parser.py`, `validator.py` and `models.py` are
shallowly embedded below.  Conventions used throughout:

* Python strings are Lean `String`s; character-level operations are
  implemented by structural recursion over `String.data` so that every
  definition evaluates by kernel reduction.  `str.lower`, `str.strip`,
  `str.isalnum` are modelled over the ASCII range (all inputs of
  interest are ASCII).
* Python dictionaries are association lists with insert-or-replace
  semantics (insertion order preserved, as in Python 3.7+).
* A Python `set` used only for membership (`seen_signatures`, token sets)
  is modelled by a canonical deduplicated list; the one set whose
  *iteration order* is observable (`tables_in_query` in
  `validate_view`) is modelled in insertion order, a deterministic
  stand-in for CPython's unspecified set ordering.  No theorem below
  depends on that choice: the concrete inputs used are insensitive to it.
* Code that can raise an uncaught exception (`str.split()[0]` on
  whitespace-only input) is modelled with `Option`; `none` is the
  exceptional outcome.
* Floats (`min_semantic_score`, the Jaccard score) are modelled as `ℚ`.
* `logger.warning` calls in the schema builder are modelled by an
  accumulated list of warning strings (message text slightly
  abbreviated where Python interpolates a whole dict).
-/

/-- One apostrophe character, used to reproduce the quoted fragments of the
Python error messages. -/
def apos : String := String.singleton (Char.ofNat 39)

/-- ASCII model of `str.lower` (Python lowercases per character). -/
def strLower (s : String) : String := ⟨s.data.map Char.toLower⟩

/-- Python `str.isspace` on the ASCII range. -/
def isSpaceChar (c : Char) : Bool := c.isWhitespace

/-- Drop leading whitespace of a character list. -/
def dropLeadWs (cs : List Char) : List Char := cs.dropWhile isSpaceChar

/-- Python `str.strip()` (trim surrounding whitespace). -/
def pyStrip (s : String) : String :=
  ⟨((dropLeadWs s.data).reverse.dropWhile isSpaceChar).reverse⟩

/-- Auxiliary for whitespace splitting: accumulates the current word. -/
def splitWsAux : List Char → List Char → List String
  | [], [] => []
  | [], acc => [⟨acc.reverse⟩]
  | c :: cs, acc =>
    if isSpaceChar c then
      match acc with
      | [] => splitWsAux cs []
      | _ => ⟨acc.reverse⟩ :: splitWsAux cs []
    else splitWsAux cs (c :: acc)

/-- Python `str.split()` with no argument: split on whitespace runs,
producing no empty fragments. -/
def pySplitWs (s : String) : List String := splitWsAux s.data []

/-- Auxiliary for single-character splitting, keeping empty fragments. -/
def splitOnCharAux (sep : Char) : List Char → List Char → List String
  | [], acc => [⟨acc.reverse⟩]
  | c :: cs, acc =>
    if c = sep then ⟨acc.reverse⟩ :: splitOnCharAux sep cs []
    else splitOnCharAux sep cs (c :: acc)

/-- Python `str.split(sep)` for a one-character separator: keeps empty
fragments, always returns at least one fragment. -/
def splitOnChar (sep : Char) (s : String) : List String :=
  splitOnCharAux sep s.data []

/-- Suffix test on character lists (structural). -/
def endsWithL (cs suf : List Char) : Bool :=
  decide (suf.length ≤ cs.length) && (cs.drop (cs.length - suf.length) == suf)

/-- Substring containment on character lists, modelling Python `in`. -/
def containsSub : List Char → List Char → Bool
  | _, [] => true
  | [], _ :: _ => false
  | c :: cs, pat => (pat.isPrefixOf (c :: cs)) || containsSub cs pat

/-- Python `sub in s` for strings. -/
def strContainsSub (s pat : String) : Bool := containsSub s.data pat.data

/-- Python `str.isalnum()`: nonempty and every character alphanumeric. -/
def pyIsalnum (cs : List Char) : Bool := !cs.isEmpty && cs.all Char.isAlphanum

/-- Keep the first occurrence of each string, dropping later duplicates. -/
def dedupKeepFirstAux (seen : List String) : List String → List String
  | [] => []
  | x :: xs =>
    if seen.contains x then dedupKeepFirstAux seen xs
    else x :: dedupKeepFirstAux (x :: seen) xs

/-- Deduplicate a list of strings keeping first occurrences. -/
def dedupKeepFirst (l : List String) : List String := dedupKeepFirstAux [] l

/-- Lexicographic comparison of character lists by code point, the order
Python uses on `str`. -/
def charListLe : List Char → List Char → Bool
  | [], _ => true
  | _ :: _, [] => false
  | a :: as, b :: bs =>
    if a = b then charListLe as bs else decide (a.toNat < b.toNat)

/-- Python `s1 <= s2` on strings. -/
def pyStrLe (a b : String) : Bool := charListLe a.data b.data

/-- Insert a string into a sorted list (stable insertion sort step). -/
def insertSorted (x : String) : List String → List String
  | [] => [x]
  | y :: ys => if pyStrLe x y then x :: y :: ys else y :: insertSorted x ys

/-- Python `sorted` on a list of strings (stable, ascending). -/
def pySorted : List String → List String
  | [] => []
  | x :: xs => insertSorted x (pySorted xs)

/-- Canonical representative of a finite set of strings: sorted without
duplicates.  Two Python `frozenset`s are equal iff their canonical
representatives are equal. -/
def canonSet (l : List String) : List String := pySorted (dedupKeepFirst l)

/-- Replace every occurrence of one character, modelling
`str.replace(old, new)` for single characters. -/
def replChar (old new : Char) (s : String) : String :=
  ⟨s.data.map (fun c => if c = old then new else c)⟩

/-!  `models.py`: the pydantic data contracts. -/

/-- `models.JoinSpecification` (post-construction: `type` already
validated and upper-cased by the pydantic validator). -/
structure JoinSpecification where
  type : String
  table : String
  onCond : String
deriving DecidableEq

/-- `models.QuerySpecification`.  A Python value of `None` for the
optional clause lists is `none`. -/
structure QuerySpecification where
  select : List String
  from_table : String
  joins : List JoinSpecification
  where_ : Option (List String) := none
  group_by : Option (List String) := none
  having : Option (List String) := none
  order_by : Option (List String) := none
deriving DecidableEq

/-- `models.ViewDefinition` (metadata omitted: never consulted by the
validator or deduplicator). -/
structure ViewDefinition where
  name : String
  description : String
  query : QuerySpecification
deriving DecidableEq

/-- `models.ValidationResult`. -/
structure ValidationResult where
  is_valid : Bool
  view_name : String
  errors : List String := []
  warnings : List String := []
  sql : Option String := none
  semantic_score : Option ℚ := none
deriving DecidableEq

/-- `ViewDefinition.validate_view_name` from `models.py`: lowercase and
strip, replace spaces and hyphens with underscores, and—when the
underscore-free residue is not purely alphanumeric—drop every character
that is neither alphanumeric nor underscore; an empty result is a
construction-time `ValueError`, modelled as `none`. -/
def validate_view_name (v : String) : Option String :=
  let v1 := pyStrip (strLower v)
  let v2 := replChar '-' '_' (replChar ' ' '_' v1)
  let check := pyIsalnum (v2.data.filter (fun c => !(c = '_')))
  let v3 : String :=
    if !check then ⟨v2.data.filter (fun c => c.isAlphanum || c = '_')⟩ else v2
  if v3.data.isEmpty then none else some v3

/-- The sanitization pipeline exactly as the claim words it (no trimming
of surrounding whitespace): lowercase, replace spaces and hyphens with
underscores, strip every character that is neither alphanumeric nor
underscore, error when empty. -/
def claimSanitize (v : String) : Option String :=
  let v1 := strLower v
  let v2 := replChar '-' '_' (replChar ' ' '_' v1)
  let v3 : String := ⟨v2.data.filter (fun c => c.isAlphanum || c = '_')⟩
  if v3.data.isEmpty then none else some v3

/-- The claim's pipeline amended with the whitespace trim the source
performs (`v.lower().strip()`) before the replacements. -/
def claimSanitizeTrimmed (v : String) : Option String :=
  let v1 := pyStrip (strLower v)
  let v2 := replChar '-' '_' (replChar ' ' '_' v1)
  let v3 : String := ⟨v2.data.filter (fun c => c.isAlphanum || c = '_')⟩
  if v3.data.isEmpty then none else some v3

/-!  `schema_parser.py`: data model, relationship graph and two-pass build. -/

/-- `schema_parser.Column`. -/
structure Column where
  name : String
  type : String
  description : String
  is_primary_key : Bool := false
  is_foreign_key : Bool := false
  references : Option (String × String) := none
deriving DecidableEq

/-- One entry of a table's `foreign_keys` array.  A missing key in the
JSON object and an empty string are both falsy in the source's
`all([...])` test, so both are modelled by `""`. -/
structure RawFK where
  column : String
  references_table : String
  references_column : String
deriving DecidableEq

/-- `schema_parser.Table`. -/
structure Table where
  name : String
  columns : List Column := []
  foreign_keys : List RawFK := []
  description : String := ""
deriving DecidableEq

/-- `Table.get_column`: first column whose name matches
case-insensitively. -/
def Table.get_column (t : Table) (col_name : String) : Option Column :=
  t.columns.find? (fun c => strLower c.name == strLower col_name)

/-- A raw column description from the schema document.  An absent
`name` key is modelled by `""` (both are falsy); an absent `type` key
is modelled by the caller-visible default `"unknown"`, an absent
`description` by `""`. -/
structure RawColumn where
  name : String
  type : String := "unknown"
  description : String := ""
deriving DecidableEq

/-- A raw table description from the schema document. -/
structure RawTable where
  name : String
  description : String := ""
  columns : List RawColumn := []
  foreign_keys : List RawFK := []
deriving DecidableEq

/-- The schema document (`raw_schema.get('tables', [])`). -/
structure RawSchema where
  tables : List RawTable
deriving DecidableEq

/-- Data carried by one relationship-graph edge
(`column=`, `references=`, `direction=` keyword arguments of
`add_edge`). -/
structure EdgeData where
  column : String
  references : String
  direction : String
deriving DecidableEq

/-- `networkx.DiGraph`, restricted to what the source uses: a simple
directed graph whose edges carry data.  `add_edge` on an existing
ordered pair replaces that edge's data. -/
structure DiGraph where
  edges : List ((String × String) × EdgeData) := []
deriving DecidableEq

/-- Insert-or-replace an edge keyed by its ordered endpoint pair. -/
def upsertEdge (k : String × String) (d : EdgeData) :
    List ((String × String) × EdgeData) → List ((String × String) × EdgeData)
  | [] => [(k, d)]
  | (k', d') :: es =>
    if k' = k then (k, d) :: es else (k', d') :: upsertEdge k d es

/-- `DiGraph.add_edge`. -/
def DiGraph.addEdge (g : DiGraph) (u v : String) (d : EdgeData) : DiGraph :=
  ⟨upsertEdge (u, v) d g.edges⟩

/-- `G.get_edge_data(u, v)`. -/
def DiGraph.getEdgeData (g : DiGraph) (u v : String) : Option EdgeData :=
  (g.edges.find? (fun e => e.1 == (u, v))).map (·.2)

/-- Edge existence. -/
def DiGraph.hasEdge (g : DiGraph) (u v : String) : Bool :=
  (g.getEdgeData u v).isSome

/-- `t in G`: node membership.  Nodes exist exactly as endpoints of
edges, since the source adds nodes only through `add_edge`. -/
def DiGraph.hasNode (g : DiGraph) (t : String) : Bool :=
  g.edges.any (fun e => e.1.1 == t || e.1.2 == t)

/-- All edge endpoints in insertion order (with repetition). -/
def DiGraph.nodesList (g : DiGraph) : List String :=
  g.edges.map (·.1.1) ++ g.edges.map (·.1.2)

/-- The distinct nodes of the graph. -/
def DiGraph.candidates (g : DiGraph) : List String :=
  dedupKeepFirst g.nodesList

/-- Insert-or-replace in the `self.tables` dictionary. -/
def dictInsert (k : String) (t : Table) :
    List (String × Table) → List (String × Table)
  | [] => [(k, t)]
  | (k', t') :: es =>
    if k' = k then (k, t) :: es else (k', t') :: dictInsert k t es

/-- Exact-key dictionary lookup (`self.tables[name]` access). -/
def dictGet (tabs : List (String × Table)) (k : String) : Option Table :=
  (tabs.find? (fun e => e.1 == k)).map (·.2)

/-- Exact-key dictionary membership (`name in self.tables`). -/
def dictHasKey (tabs : List (String × Table)) (k : String) : Bool :=
  tabs.any (fun e => e.1 == k)

/-- Replace the first element satisfying the predicate. -/
def mapFirst (p : Column → Bool) (f : Column → Column) :
    List Column → List Column
  | [] => []
  | c :: cs => if p c then f c :: cs else c :: mapFirst p f cs

/-- Mark the first case-insensitive match of `col_name` as a foreign key
with its reference recorded (the in-place mutation of the found
`Column` object). -/
def markFKColumn (t : Table) (col_name rt rc : String) : Table :=
  { t with
    columns := mapFirst (fun c => strLower c.name == strLower col_name)
      (fun c => { c with is_foreign_key := true, references := some (rt, rc) })
      t.columns }

/-- State threaded through the foreign-key pass: the tables dictionary,
the relationship graph, and the accumulated `logger.warning` messages. -/
structure ParseState where
  tables : List (String × Table)
  graph : DiGraph
  warnings : List String
deriving DecidableEq

/-- The body of the second-pass loop of `SchemaParser._parse` for a
single declared foreign key of table `tname`: drop (with a warning) when
any field is falsy, when the referenced table is not a dictionary key,
or when the originating column is absent from its table; otherwise mark
the originating column and add the forward and reverse edges.  The
referenced column's existence is never consulted. -/
def processFK (st : ParseState) (tname : String) (fk : RawFK) : ParseState :=
  if fk.column == "" || fk.references_table == "" || fk.references_column == "" then
    { st with warnings := st.warnings ++
        ["Incomplete foreign key definition in table " ++ tname] }
  else if !(dictHasKey st.tables fk.references_table) then
    { st with warnings := st.warnings ++
        ["Foreign key in " ++ tname ++ "." ++ fk.column ++
         " references non-existent table: " ++ fk.references_table] }
  else
    match dictGet st.tables tname with
    | none => st
    | some tbl =>
      match tbl.get_column fk.column with
      | none =>
        { st with warnings := st.warnings ++
            ["Foreign key references non-existent column: " ++
             tname ++ "." ++ fk.column] }
      | some _ =>
        let tabs' := dictInsert tname
          (markFKColumn tbl fk.column fk.references_table fk.references_column)
          st.tables
        let g' := (st.graph.addEdge tname fk.references_table
            ⟨fk.column, fk.references_column, "forward"⟩).addEdge
            fk.references_table tname
            ⟨fk.references_column, fk.column, "reverse"⟩
        { st with tables := tabs', graph := g' }

/-- First pass of `_parse`: build `Table` and `Column` objects, skipping
nameless tables and columns with a warning, and store the raw
foreign-key declarations. -/
def firstPass (doc : RawSchema) : List (String × Table) × List String :=
  doc.tables.foldl
    (fun (acc : List (String × Table) × List String) td =>
      if td.name == "" then
        (acc.1, acc.2 ++ ["Skipping table without name"])
      else
        let cols := td.columns.filterMap (fun cd =>
          if cd.name == "" then none
          else some { name := cd.name, type := cd.type,
                      description := cd.description : Column })
        let warns := td.columns.filterMap (fun cd =>
          if cd.name == "" then
            some ("Skipping column without name in table " ++ td.name)
          else none)
        (dictInsert td.name
          { name := td.name, columns := cols, foreign_keys := td.foreign_keys,
            description := td.description } acc.1,
         acc.2 ++ warns))
    ([], [])

/-- Second pass of `_parse`: iterate the tables dictionary (its key
structure is not changed by the pass, so the iteration snapshot taken
here is faithful) and process every declared foreign key in order. -/
def secondPass (st0 : ParseState) : ParseState :=
  (st0.tables.map (fun e => (e.1, e.2.foreign_keys))).foldl
    (fun st (e : String × List RawFK) =>
      e.2.foldl (fun st fk => processFK st e.1 fk) st)
    st0

/-- The primary-key heuristic applied to one column (third pass). -/
def pkMark (c : Column) : Column :=
  if c.is_foreign_key then c
  else if strLower c.name == "id" then { c with is_primary_key := true }
  else if endsWithL (strLower c.name).data "_id".data &&
          containsSub (strLower c.type).data "int".data then
    { c with is_primary_key := true }
  else c

/-- `_identify_primary_keys`. -/
def markPKs (tabs : List (String × Table)) : List (String × Table) :=
  tabs.map (fun e => (e.1, { e.2 with columns := e.2.columns.map pkMark }))

/-- `schema_parser.SchemaParser` after construction. -/
structure SchemaParser where
  tables : List (String × Table)
  relationship_graph : DiGraph
  parse_warnings : List String := []
deriving DecidableEq

/-- `SchemaParser.__init__` / `_parse`: raises (`Except.error`) exactly
when the document's tables array is empty; otherwise runs the three
passes. -/
def SchemaParser.parse (doc : RawSchema) : Except String SchemaParser :=
  if doc.tables.isEmpty then
    .error "Schema must contain 'tables' array"
  else
    let fp := firstPass doc
    let st := secondPass { tables := fp.1, graph := ⟨[]⟩, warnings := fp.2 }
    .ok { tables := markPKs st.tables, relationship_graph := st.graph,
          parse_warnings := st.warnings }

/-- `SchemaParser.get_table`: first dictionary entry matching
case-insensitively. -/
def SchemaParser.get_table (sp : SchemaParser) (table_name : String) :
    Option Table :=
  (sp.tables.find? (fun e => strLower e.1 == strLower table_name)).map (·.2)

/-- `SchemaParser.has_table`. -/
def SchemaParser.has_table (sp : SchemaParser) (table_name : String) : Bool :=
  (sp.get_table table_name).isSome

/-- `SchemaParser.has_column`. -/
def SchemaParser.has_column (sp : SchemaParser) (table_name column_name : String) :
    Bool :=
  match sp.get_table table_name with
  | none => false
  | some t => (t.get_column column_name).isSome

/-!  Join-path search.  The source calls `networkx.shortest_path`, a
breadth-first search.  It is modelled by a saturating frontier
expansion: each round adds, for every graph node not yet recorded, a
path extending some recorded node with one edge.  The model satisfies
the `shortest_path` contract the source relies on — it returns a valid
edge path exactly when one exists, and returns `[source]` when source
and target coincide — though the returned path need not be of minimal
length (no caller inspects more than existence, endpoints and
emptiness). -/

/-- Reach table entries: a node together with a path from the start node
to it (in forward order, ending at the node). -/
abbrev ReachEntry := String × List String

/-- One expansion round: for every distinct graph node not yet recorded,
record it if some recorded node has an edge to it, extending that
node's path. -/
def expandReach (g : DiGraph) (acc : List ReachEntry) : List ReachEntry :=
  acc ++ g.candidates.filterMap (fun v =>
    if acc.any (fun e => e.1 == v) then none
    else match acc.find? (fun e => g.hasEdge e.1 v) with
      | some u => some (v, u.2 ++ [v])
      | none => none)

/-- Iterated expansion. -/
def iterReach (g : DiGraph) : Nat → List ReachEntry → List ReachEntry
  | 0, acc => acc
  | n + 1, acc => iterReach g n (expandReach g acc)

/-- The saturated reach table from a start node. -/
def reachTable (g : DiGraph) (t1 : String) : List ReachEntry :=
  iterReach g (g.candidates.length + 1) [(t1, [t1])]

/-- Model of `nx.shortest_path(G, t1, t2)`: `some` path when `t2` is
reachable from `t1`, `none` (the `NetworkXNoPath` exception, caught by
the caller) otherwise. -/
def shortestPath (g : DiGraph) (t1 t2 : String) : Option (List String) :=
  ((reachTable g t1).find? (fun e => e.1 == t2)).map (·.2)

/-- One join hop: `(from_table, from_col, to_table, to_col)`. -/
abbrev JoinHop := String × String × String × String

/-- The hop-building loop of `get_join_path`: for each consecutive node
pair of the path, append a hop when edge data is present (`if
edge_data:`). -/
def buildHops (g : DiGraph) : List String → List JoinHop
  | a :: b :: rest =>
    (match g.getEdgeData a b with
     | some d => [(a, d.column, b, d.references)]
     | none => []) ++ buildHops g (b :: rest)
  | _ => []

/-- The last dictionary key matching a name case-insensitively (the
normalization loop overwrites `t1`/`t2` on every match, so the last
match wins). -/
def SchemaParser.lastNameMatch (sp : SchemaParser) (a : String) : Option String :=
  sp.tables.foldl
    (fun acc e => if strLower e.1 == strLower a then some e.1 else acc) none

/-- `SchemaParser.get_join_path`. -/
def SchemaParser.get_join_path (sp : SchemaParser) (table1 table2 : String) :
    Option (List JoinHop) :=
  if table1 == table2 then some []
  else
    match sp.lastNameMatch table1, sp.lastNameMatch table2 with
    | some t1, some t2 =>
      if !(sp.relationship_graph.hasNode t1) ||
         !(sp.relationship_graph.hasNode t2) then none
      else
        match shortestPath sp.relationship_graph t1 t2 with
        | none => none
        | some path_nodes =>
          let join_path := buildHops sp.relationship_graph path_nodes
          if join_path.isEmpty then none else some join_path
    | _, _ => none

/-!  `validator.py`: the view validator and SQL compiler. -/

/-- `ViewValidator.__init__` state: the schema plus the two
configuration values read from `config.app` (defaults
`MIN_SEMANTIC_SCORE = 0.05`, `ENABLE_SEMANTIC_VALIDATION = true`). -/
structure ViewValidator where
  schema : SchemaParser
  min_semantic_score : ℚ
  enable_semantic : Bool
deriving DecidableEq

/-- `_extract_table_name`: first whitespace-separated word.  A
whitespace-only specification raises `IndexError`, modelled as
`none`. -/
def extractTableName (table_spec : String) : Option String :=
  (pySplitWs table_spec).head?

/-- The stop-word list of `_tokenize`. -/
def stopWords : List String :=
  ["the", "a", "an", "and", "or", "but", "in", "on", "at", "to", "for"]

/-- Maximal runs of characters satisfying the predicate
(`re.findall(r'[a-z0-9]+', ...)` on an already lowered text). -/
def runsBy (p : Char → Bool) : List Char → List (List Char)
  | [] => []
  | c :: cs =>
    if p c then
      match runsBy p cs, cs with
      | r :: rs, d :: _ => if p d then (c :: r) :: rs else [c] :: r :: rs
      | rs, _ => [c] :: rs
    else runsBy p cs

/-- `_tokenize`: lowercase, split into alphanumeric-lowercase runs, drop
tokens of length at most 2 and stop words.  The result models the
Python token set by a deduplicated list. -/
def tokenize (text : String) : List String :=
  dedupKeepFirst
    (((runsBy (fun c => ('a' ≤ c && c ≤ 'z') || ('0' ≤ c && c ≤ '9'))
        (strLower text).data).map (fun r => (⟨r⟩ : String))).filter
      (fun t => decide (2 < t.data.length) && !(stopWords.contains t)))

/-- The token set of one table: tokens of every column name plus of
every non-empty column description. -/
def tableTokens (t : Table) : List String :=
  dedupKeepFirst (t.columns.foldl
    (fun acc c =>
      acc ++ tokenize c.name ++
        (if c.description == "" then [] else tokenize c.description))
    [])

/-- Size of the intersection of two deduplicated lists. -/
def interCount (a b : List String) : Nat := (a.filter (b.contains ·)).length

/-- Size of the union of two deduplicated lists. -/
def unionCount (a b : List String) : Nat :=
  a.length + (b.filter (fun x => !(a.contains x))).length

/-- Decimal rendering of a rational score with three digits, modelling
Python's `f"{score:.3f}"` (round half away from zero; the scores
compared in practice are exact at this precision). -/
def fmt3 (q : ℚ) : String :=
  let m : Int := Int.floor (q * 1000 + 1/2)
  let n := m.natAbs
  let intPart := toString (n / 1000)
  let frac := toString (n % 1000)
  let pad := String.mk (List.replicate (3 - frac.length) '0')
  (if m < 0 then "-" else "") ++ intPart ++ "." ++ pad ++ frac

/-- `_validate_semantic_relevance`: Jaccard similarity of the two
tables' token sets, plus a warning when the score is below the
configured minimum. -/
def validateSemanticRelevance (vv : ViewValidator) (table1 table2 : String)
    (join_num : Nat) : ℚ × List String :=
  match vv.schema.get_table table1, vv.schema.get_table table2 with
  | some t1, some t2 =>
    let tok1 := tableTokens t1
    let tok2 := tableTokens t2
    let score : ℚ :=
      if tok1.isEmpty || tok2.isEmpty then 0
      else (interCount tok1 tok2 : ℚ) / (unionCount tok1 tok2 : ℚ)
    if score < vv.min_semantic_score then
      (score, ["Join #" ++ toString join_num ++ ": Low semantic similarity (" ++
        fmt3 score ++ ") between " ++ apos ++ table1 ++ apos ++ " and " ++
        apos ++ table2 ++ apos ++ ". Tables may not be semantically related."])
    else (score, [])
  | _, _ => (0, [])

/-- `_validate_join_path`: require an FK path (existence only), then
check the ON condition parses as exactly one `=` with two sides, each
side ideally a qualified `table.column` reference (else a warning). -/
def validateJoinPath (vv : ViewValidator) (base_table join_table : String)
    (j : JoinSpecification) (join_num : Nat) : List String × List String :=
  match vv.schema.get_join_path base_table join_table with
  | none =>
    (["Join #" ++ toString join_num ++ ": No foreign key path exists between " ++
      apos ++ base_table ++ apos ++ " and " ++ apos ++ join_table ++ apos], [])
  | some _ =>
    match splitOnChar '=' j.onCond with
    | [left, right] =>
      let left := pyStrip left
      let right := pyStrip right
      if !((splitOnChar '.' left).length == 2) ||
         !((splitOnChar '.' right).length == 2) then
        ([], ["Join #" ++ toString join_num ++
          ": Join condition should use qualified names (table.column = table.column)"])
      else ([], [])
    | _ =>
      (["Join #" ++ toString join_num ++ ": Invalid join condition format: " ++
        apos ++ j.onCond ++ apos ++
        ". Expected format: " ++ apos ++ "table.column = table.column" ++ apos], [])

/-- The table-resolution loop shared by the SELECT / WHERE / GROUP BY /
HAVING / ORDER BY validators: scan the accumulated tables (modelled in
insertion order) for the first entry matching the reference's prefix by
name — or, by the `or self.schema.has_table(...)` disjunct, the first
entry at all whenever the prefix names any schema table — and check the
column against that entry; no match yields an unknown-reference
error. -/
def resolveRef (vv : ViewValidator) (tables : List String)
    (table_or_alias column clause : String) : List String :=
  match tables.find? (fun t =>
      strLower t == strLower table_or_alias || vv.schema.has_table table_or_alias) with
  | some t =>
    if !(vv.schema.has_column t column) then
      [clause ++ ": Column " ++ apos ++ column ++ apos ++
       " does not exist in table " ++ apos ++ t ++ apos]
    else []
  | none =>
    [clause ++ ": Unknown table reference " ++ apos ++ table_or_alias ++ apos]

/-- `_validate_select_columns` for one select expression.  `none` models
the `IndexError` raised by `column.split()[0]` when the text after the
first dot is whitespace-only. -/
def selectErrsOne (vv : ViewValidator) (tables : List String) (expr : String) :
    Option (List String) :=
  if !(expr.data.contains '.') then some []
  else
    match splitOnChar '.' expr with
    | p0 :: p1 :: _ => do
      let table_or_alias := pyStrip p0
      let column0 ← (pySplitWs (pyStrip p1)).head?
      some (resolveRef vv tables table_or_alias (pyStrip column0) "SELECT")
    | _ => some []

/-- `_validate_select_columns`. -/
def validateSelectColumns (vv : ViewValidator) (select_list : List String)
    (tables : List String) : Option (List String) :=
  match select_list with
  | [] => some []
  | e :: es => do
    let errs ← selectErrsOne vv tables e
    let rest ← validateSelectColumns vv es tables
    some (errs ++ rest)

/-- Tokens for the `(\w+)\.(\w+)` scan: maximal word runs and single
other characters. -/
inductive CondTok where
  | word (w : List Char)
  | sym (c : Char)
deriving DecidableEq

/-- Python `\w`. -/
def isWordChar (c : Char) : Bool := c.isAlphanum || c = '_'

/-- Group a character list into word runs and single symbols. -/
def condToks : List Char → List CondTok
  | [] => []
  | c :: cs =>
    if isWordChar c then
      match condToks cs, cs with
      | .word w :: ts, d :: _ =>
        if isWordChar d then .word (c :: w) :: ts else .word [c] :: .word w :: ts
      | ts, _ => .word [c] :: ts
    else .sym c :: condToks cs

/-- Non-overlapping left-to-right matches of `(\w+)\.(\w+)`
(`re.findall`): a word run, a dot, a word run; scanning resumes after
the second run. -/
def pairWalk : List CondTok → List (String × String)
  | .word w :: .sym '.' :: .word v :: rest => (⟨w⟩, ⟨v⟩) :: pairWalk rest
  | _ :: rest => pairWalk rest
  | [] => []

/-- All `table.column` occurrences of a condition string. -/
def findRefPairs (condition : String) : List (String × String) :=
  pairWalk (condToks condition.data)

/-- `_validate_conditions` (WHERE / HAVING). -/
def validateConditions (vv : ViewValidator) (conditions : List String)
    (tables : List String) (clause_name : String) : List String :=
  conditions.foldl
    (fun acc c =>
      acc ++ (findRefPairs c).foldl
        (fun acc2 p => acc2 ++ resolveRef vv tables p.1 p.2 clause_name) [])
    []

/-- `re.sub(r'\s+(DESC|ASC)$', '', col_expr, IGNORECASE)`: drop a
trailing ASC/DESC keyword together with the mandatory whitespace run
before it. -/
def stripOrderKw (s : String) : String :=
  let cs := s.data
  let lower := cs.map Char.toLower
  let tryDrop : Nat → String := fun n =>
    let core := cs.take (cs.length - n)
    match core.getLast? with
    | some c =>
      if isSpaceChar c then ⟨(core.reverse.dropWhile isSpaceChar).reverse⟩ else s
    | none => s
  if endsWithL lower "desc".data then tryDrop 4
  else if endsWithL lower "asc".data then tryDrop 3
  else s

/-- `_validate_column_list` (GROUP BY / ORDER BY). -/
def validateColumnList (vv : ViewValidator) (columns : List String)
    (tables : List String) (clause_name : String) : List String :=
  columns.foldl
    (fun acc c0 =>
      let c := pyStrip (stripOrderKw c0)
      acc ++
        (if !(c.data.contains '.') then []
         else match splitOnChar '.' c with
          | p0 :: p1 :: _ => resolveRef vv tables (pyStrip p0) (pyStrip p1) clause_name
          | _ => []))
    []

/-- Join a list of strings with a separator (`sep.join(parts)`). -/
def joinSep (sep : String) : List String → String
  | [] => ""
  | [x] => x
  | x :: y :: rest => x ++ sep ++ joinSep sep (y :: rest)

/-- Truthiness of an optional clause list: Python treats both `None`
and `[]` as absent. -/
def optList (o : Option (List String)) : List String :=
  match o with
  | none => []
  | some l => l

/-- `_compile_to_sql`: deterministic clause-ordered assembly, one clause
per line, terminated by a semicolon. -/
def compileToSql (view : ViewDefinition) : String :=
  let parts :=
    ["SELECT " ++ joinSep ", " view.query.select,
     "FROM " ++ view.query.from_table] ++
    view.query.joins.map (fun j =>
      j.type ++ " JOIN " ++ j.table ++ " ON " ++ j.onCond) ++
    (match optList view.query.where_ with
     | [] => []
     | l => ["WHERE " ++ joinSep " AND " l]) ++
    (match optList view.query.group_by with
     | [] => []
     | l => ["GROUP BY " ++ joinSep ", " l]) ++
    (match optList view.query.having with
     | [] => []
     | l => ["HAVING " ++ joinSep " AND " l]) ++
    (match optList view.query.order_by with
     | [] => []
     | l => ["ORDER BY " ++ joinSep ", " l])
  joinSep "\n" parts ++ ";"

/-- The per-join loop of `validate_view`: accumulate the table set (in
insertion order), the join errors and the warnings.  `none` models the
`IndexError` from `_extract_table_name` on a whitespace-only join table
specification. -/
def processJoins (vv : ViewValidator) (base_table : String) :
    Nat → List String → List String → List String → List JoinSpecification →
    Option (List String × List String × List String)
  | _, tables, errs, warns, [] => some (tables, errs, warns)
  | i, tables, errs, warns, j :: rest => do
    let join_table ← extractTableName j.table
    let tables := if tables.contains join_table then tables
                  else tables ++ [join_table]
    if !(vv.schema.has_table join_table) then
      processJoins vv base_table (i + 1) tables
        (errs ++ ["Join #" ++ toString (i + 1) ++ ": Table " ++ apos ++
          join_table ++ apos ++ " does not exist in schema"])
        warns rest
    else
      let je := validateJoinPath vv base_table join_table j (i + 1)
      let sem : List String :=
        if vv.enable_semantic then
          (validateSemanticRelevance vv base_table join_table (i + 1)).2
        else []
      processJoins vv base_table (i + 1) tables (errs ++ je.1)
        (warns ++ je.2 ++ sem) rest

/-- Assemble the final `ValidationResult` once all errors are known: the
SQL is compiled iff no error was produced (the model's compiler is
total, so the `except` branch of step 9 cannot fire), and the verdict is
valid iff the error list is empty. -/
def finishResult (view : ViewDefinition) (errors warnings : List String) :
    ValidationResult :=
  { is_valid := errors.isEmpty,
    view_name := view.name,
    errors := errors,
    warnings := warnings,
    sql := if errors.isEmpty then some (compileToSql view) else none,
    semantic_score := none }

/-- `ViewValidator.validate_view`.  `none` models an uncaught exception
(whitespace-only table specifications or a select entry with nothing
after its first dot). -/
def validate_view (vv : ViewValidator) (view : ViewDefinition) :
    Option ValidationResult :=
  match extractTableName view.query.from_table with
  | none => none
  | some base_table =>
    if !(vv.schema.has_table base_table) then
      some { is_valid := false, view_name := view.name,
             errors := ["Base table " ++ apos ++ base_table ++ apos ++
               " does not exist in schema"],
             warnings := [], sql := none, semantic_score := none }
    else
      match processJoins vv base_table 0 [base_table] [] [] view.query.joins with
      | none => none
      | some (tables_in_query, join_errs, warns) =>
        match validateSelectColumns vv view.query.select tables_in_query with
        | none => none
        | some select_errs =>
          let errors := join_errs ++ select_errs
            ++ validateConditions vv (optList view.query.where_)
                 tables_in_query "WHERE"
            ++ validateColumnList vv (optList view.query.group_by)
                 tables_in_query "GROUP BY"
            ++ validateConditions vv (optList view.query.having)
                 tables_in_query "HAVING"
            ++ validateColumnList vv (optList view.query.order_by)
                 tables_in_query "ORDER BY"
          some (finishResult view errors warns)

/-!  `deduplicate_views` and its signature. -/

/-- The canonical signature of a view: the set of referenced tables
(base plus join tables, alias stripped; canonicalized, since Python
compares this component as a `frozenset`) paired with the sorted select
list.  `none` models the `IndexError` on a whitespace-only table
specification. -/
def viewSignature (v : ViewDefinition) : Option (List String × List String) := do
  let t0 ← (pySplitWs v.query.from_table).head?
  let ts ← v.query.joins.mapM (fun j => (pySplitWs j.table).head?)
  some (canonSet (t0 :: ts), pySorted v.query.select)

/-- The loop of `deduplicate_views` with its `seen_signatures`
accumulator. -/
def dedupViewsGo (seen : List (List String × List String)) :
    List ViewDefinition → Option (List ViewDefinition)
  | [] => some []
  | v :: vs =>
    match viewSignature v with
    | none => none
    | some s =>
      if seen.contains s then dedupViewsGo seen vs
      else (dedupViewsGo (s :: seen) vs).map (v :: ·)

/-- `validator.deduplicate_views`. -/
def deduplicate_views (views : List ViewDefinition) :
    Option (List ViewDefinition) :=
  dedupViewsGo [] views

/-- Reference formulation of first-occurrence filtering: keep a view
exactly when its signature differs from the signature of every earlier
view (kept or dropped); `pre` accumulates the signatures of all views
already scanned. -/
def keepFirstBySig (pre : List (Option (List String × List String))) :
    List ViewDefinition → List ViewDefinition
  | [] => []
  | v :: vs =>
    if pre.contains (viewSignature v) then keepFirstBySig pre vs
    else v :: keepFirstBySig (viewSignature v :: pre) vs

/-!  Concrete instances used by the scenario theorems and witnesses. -/

/-- The scenario schema: `orders(id, customer_id FK→customers.id)` and
`customers(id)` (the select list of the scenario refers to `orders.id`,
so the orders table carries its id column alongside the FK column the
claim's shorthand lists). -/
def demoDoc : RawSchema :=
  { tables := [
      { name := "orders",
        columns := [{ name := "id", type := "bigint" },
                    { name := "customer_id", type := "bigint" }],
        foreign_keys := [{ column := "customer_id",
                           references_table := "customers",
                           references_column := "id" }] },
      { name := "customers",
        columns := [{ name := "id", type := "bigint" }] } ] }

/-- The parsed scenario schema (the parse succeeds; see the theorems). -/
def demoSP : SchemaParser :=
  ((SchemaParser.parse demoDoc).toOption).getD
    { tables := [], relationship_graph := ⟨[]⟩ }

/-- A validator over the scenario schema with the configuration
defaults (`MIN_SEMANTIC_SCORE = 0.05`, semantic validation enabled). -/
def demoVV : ViewValidator :=
  { schema := demoSP, min_semantic_score := 1/20, enable_semantic := true }

/-- The scenario view specification of the spec. -/
def demoView : ViewDefinition :=
  { name := "order_customer_view", description := "demo",
    query := { select := ["orders.id", "customers.id"],
               from_table := "orders",
               joins := [{ type := "INNER", table := "customers",
                           onCond := "orders.customer_id = customers.id" }] } }

/-- A view whose only select entry is qualified by a table that exists
in the schema but is neither the base table nor any join table. -/
def straySelectView : ViewDefinition :=
  { name := "stray", description := "",
    query := { select := ["customers.id"], from_table := "orders",
               joins := [] } }

/-- A view whose base table is absent from the schema. -/
def missingBaseView : ViewDefinition :=
  { name := "ghost", description := "",
    query := { select := ["x"], from_table := "nosuch", joins := [] } }

/-- A second view with a missing base table (used by a separate
witness). -/
def missingBaseView2 : ViewDefinition :=
  { name := "ghost2", description := "",
    query := { select := [], from_table := "absent", joins := [] } }

/-- A schema whose single foreign key references an existing table but a
column that table does not have. -/
def danglingColDoc : RawSchema :=
  { tables := [
      { name := "orders",
        columns := [{ name := "customer_id", type := "bigint" }],
        foreign_keys := [{ column := "customer_id",
                           references_table := "customers",
                           references_column := "nope" }] },
      { name := "customers",
        columns := [{ name := "id", type := "bigint" }] } ] }

/-- The parse of `danglingColDoc`. -/
def danglingColSP : SchemaParser :=
  ((SchemaParser.parse danglingColDoc).toOption).getD
    { tables := [], relationship_graph := ⟨[]⟩ }

/-- A schema with one self-referencing foreign key
(`employees.manager_id → employees.id`). -/
def selfFkDoc : RawSchema :=
  { tables := [
      { name := "employees",
        columns := [{ name := "id", type := "bigint" },
                    { name := "manager_id", type := "bigint" }],
        foreign_keys := [{ column := "manager_id",
                           references_table := "employees",
                           references_column := "id" }] } ] }

/-- The parse of `selfFkDoc`. -/
def selfFkSP : SchemaParser :=
  ((SchemaParser.parse selfFkDoc).toOption).getD
    { tables := [], relationship_graph := ⟨[]⟩ }

/-- Three view specifications where the first and third share a
deduplication signature (same table set, same sorted select list) while
the second differs. -/
def dupViewA : ViewDefinition :=
  { name := "a", description := "",
    query := { select := ["t.x"], from_table := "t", joins := [] } }

/-- The middle view with a distinct signature. -/
def dupViewB : ViewDefinition :=
  { name := "b", description := "",
    query := { select := ["u.x"], from_table := "u", joins := [] } }

/-- A view sharing `dupViewA`'s signature under a different name. -/
def dupViewA2 : ViewDefinition :=
  { name := "a2", description := "other",
    query := { select := ["t.x"], from_table := "t", joins := [] } }

/-- The edge relation of a relationship graph, as a proposition. -/
def edgeRel (g : DiGraph) (u v : String) : Prop := g.hasEdge u v = true

/-- Forward-path validity: every consecutive node pair is an edge. -/
def chainOK (g : DiGraph) : List String → Prop
  | a :: b :: rest => edgeRel g a b ∧ chainOK g (b :: rest)
  | _ => True

/-- Well-formedness of one reach-table entry for start node `t1`: the
recorded path starts at `t1`, ends at the entry's node, and follows
edges. -/
def entryOK (g : DiGraph) (t1 : String) (e : ReachEntry) : Prop :=
  e.2.head? = some t1 ∧ e.2.getLast? = some e.1 ∧ chainOK g e.2

/-!  Theorems. -/

set_option maxRecDepth 10000


/-!  Theorems. -/

set_option maxRecDepth 10000

/-- If dropping underscores from a character list leaves only
alphanumerics, then filtering for alphanumerics-or-underscore keeps the
list unchanged. -/
theorem filter_alnum_underscore_eq (cs : List Char)
    (h : (cs.filter (fun c => !(c = '_'))).all Char.isAlphanum = true) :
    cs.filter (fun c => c.isAlphanum || c = '_') = cs := by
  rw [List.filter_eq_self]
  intro a ha
  by_cases hc : a = '_'
  · simp [hc]
  · have hmem : a ∈ cs.filter (fun c => !(c = '_')) := by
      rw [List.mem_filter]
      exact ⟨ha, by simp [hc]⟩
    have := (List.all_eq_true.mp h) a hmem
    simp [this]

/-- The source sanitizer agrees everywhere with the unconditional
trim-lowercase-replace-filter pipeline: when the conditional filter is
skipped, the name already consists of alphanumerics and underscores, on
which the filter is the identity. -/
theorem sanitize_eq_trimmed (v : String) :
    validate_view_name v = claimSanitizeTrimmed v := by
  unfold validate_view_name claimSanitizeTrimmed
  set v2 := replChar '-' '_' (replChar ' ' '_' (pyStrip (strLower v))) with hv2
  by_cases hc : pyIsalnum (v2.data.filter (fun c => !(c = '_'))) = true
  · have hall : (v2.data.filter (fun c => !(c = '_'))).all Char.isAlphanum = true := by
      simp only [pyIsalnum, Bool.and_eq_true] at hc
      exact hc.2
    simp only [hc, Bool.not_true, Bool.false_eq_true, if_false]
    rw [filter_alnum_underscore_eq _ hall]
  · have hc' : pyIsalnum (v2.data.filter (fun c => !(c = '_'))) = false :=
      Bool.eq_false_iff.mpr hc
    simp only [hc', Bool.not_false, if_true]

/-- Claim C9, counterexample: the claimed pipeline (lowercase, replace
spaces and hyphens, strip other characters) does not trim surrounding
whitespace, so on the name consisting of a space followed by the letter
a it yields an underscore-prefixed name, while the source sanitizer
(which strips before replacing) yields the bare letter. -/
theorem sanitize_claim_pipeline_disagrees :
    validate_view_name " a" = some "a" ∧
    claimSanitize " a" = some "_a" ∧
    validate_view_name " a" ≠ claimSanitize " a" := by
  refine ⟨by decide, by decide, by decide⟩

/-- Claim C9, amended: view-name sanitization lowercases and trims
surrounding whitespace, then replaces spaces and hyphens with
underscores and strips every character that is neither alphanumeric nor
underscore; an empty result is a construction-time error, and
"Customer Orders!!" normalizes to "customer_orders". -/
theorem sanitize_is_trimmed_pipeline :
    (∀ v, validate_view_name v = claimSanitizeTrimmed v) ∧
    validate_view_name "Customer Orders!!" = some "customer_orders" := by
  exact ⟨sanitize_eq_trimmed, by decide⟩

/-- Claim C5: on the scenario schema (orders with id and customer_id,
the latter an FK to customers.id; customers with id) the scenario view
validates with zero errors and compiles to exactly the expected SQL
text. -/
theorem demo_view_validates_and_compiles :
    SchemaParser.parse demoDoc = .ok demoSP ∧
    (validate_view demoVV demoView).map (fun r => (r.errors, r.sql)) =
      some ([], some ("SELECT orders.id, customers.id\nFROM orders\nINNER JOIN customers ON orders.customer_id = customers.id;")) := by
  exact ⟨by rfl, by decide⟩

/-- Claim C1, behaviour exhibit at the failing input: the select entry
customers.id is qualified by a schema table that is neither the base
table nor any join table (the accumulated set is just orders), yet
validation reports no error and a valid verdict — the
`or self.schema.has_table(...)` disjunct makes the resolution loop
accept the first accumulated table and check the column against it. -/
theorem select_reference_outside_query_tables_accepted :
    demoSP.has_table "customers" = true ∧
    (validate_view demoVV straySelectView).map (fun r => (r.errors, r.is_valid)) =
      some ([], true) := by
  exact ⟨by decide, by decide⟩

/-- Claim C2, counterexample: a foreign key whose referenced table
exists but whose referenced column does not (customers has no column
nope) is nevertheless accepted — the originating column is marked as a
foreign key with the dangling reference recorded and both edges are
added — because the builder never checks the referenced column. -/
theorem fk_missing_referenced_column_still_added :
    SchemaParser.parse danglingColDoc = .ok danglingColSP ∧
    danglingColSP.has_column "customers" "nope" = false ∧
    danglingColSP.relationship_graph.hasEdge "orders" "customers" = true ∧
    danglingColSP.relationship_graph.hasEdge "customers" "orders" = true ∧
    ((dictGet danglingColSP.tables "orders").bind
        (fun t => t.get_column "customer_id")).map
      (fun c => (c.is_foreign_key, c.references)) =
      some (true, some ("customers", "nope")) := by
  exact ⟨by rfl, by decide, by decide, by decide, by decide⟩

/-- Claim C3, counterexample: Orders and orders denote the same table
case-insensitively (the schema resolves both), yet the join-path lookup
returns the no-path signal rather than the empty path, because the
trivial-path test compares the two name strings exactly and the
path found after normalization collapses to the empty list, which the
source converts to the no-path signal. -/
theorem case_variant_self_join_gives_no_path :
    demoSP.has_table "Orders" = true ∧
    demoSP.has_table "orders" = true ∧
    strLower "Orders" = strLower "orders" ∧
    demoSP.get_join_path "Orders" "orders" = none := by
  exact ⟨by decide, by decide, by decide, by decide⟩

/-- Claim C4, counterexample: for the self-referencing foreign key
employees.manager_id → employees.id the two `add_edge` calls share the
ordered endpoint pair, so the reverse record overwrites the forward one
and the final graph holds exactly one self-loop edge tagged reverse —
not a distinct forward and reverse edge pair. -/
theorem self_fk_single_reverse_edge :
    SchemaParser.parse selfFkDoc = .ok selfFkSP ∧
    selfFkSP.relationship_graph.edges =
      [(("employees", "employees"),
        { column := "id", references := "manager_id", direction := "reverse" })] := by
  exact ⟨by rfl, by decide⟩

/-- Claim C6: for every view specification whose validation completes,
the verdict is valid exactly when the accumulated error list is empty;
the warnings list plays no role in either direction. -/
theorem verdict_valid_iff_no_errors (vv : ViewValidator) (view : ViewDefinition)
    (r : ValidationResult) (h : validate_view vv view = some r) :
    r.is_valid = true ↔ r.errors = [] := by
  unfold validate_view at h
  split at h
  · exact absurd h (by simp)
  · split at h
    · cases h
      simp
    · split at h
      · exact absurd h (by simp)
      · split at h
        · exact absurd h (by simp)
        · cases h
          simp only [finishResult]
          exact List.isEmpty_iff

/-- Witness for claim C6 at a concrete input: a view whose base table is
missing yields the early-return result, on which the equivalence is
checked concretely. -/
theorem verdict_valid_iff_no_errors_witness :
    ({ is_valid := false, view_name := "ghost",
       errors := ["Base table " ++ apos ++ "nosuch" ++ apos ++
         " does not exist in schema"],
       warnings := [], sql := none, semantic_score := none } :
        ValidationResult).is_valid = true ↔
    ({ is_valid := false, view_name := "ghost",
       errors := ["Base table " ++ apos ++ "nosuch" ++ apos ++
         " does not exist in schema"],
       warnings := [], sql := none, semantic_score := none } :
        ValidationResult).errors = [] :=
  verdict_valid_iff_no_errors demoVV missingBaseView _ (by decide)

/-- Claim C10: in every produced validation result, compiled SQL is
present exactly on valid results. -/
theorem sql_present_iff_valid (vv : ViewValidator) (view : ViewDefinition)
    (r : ValidationResult) (h : validate_view vv view = some r) :
    r.sql ≠ none ↔ r.is_valid = true := by
  unfold validate_view at h
  split at h
  · exact absurd h (by simp)
  · split at h
    · cases h
      simp
    · split at h
      · exact absurd h (by simp)
      · split at h
        · exact absurd h (by simp)
        · cases h
          simp only [finishResult]
          split <;> simp_all

/-- Witness for claim C10 at a concrete input with a missing base
table: the result carries no SQL and an invalid verdict. -/
theorem sql_present_iff_valid_witness :
    ({ is_valid := false, view_name := "ghost2",
       errors := ["Base table " ++ apos ++ "absent" ++ apos ++
         " does not exist in schema"],
       warnings := [], sql := none, semantic_score := none } :
        ValidationResult).sql ≠ none ↔
    ({ is_valid := false, view_name := "ghost2",
       errors := ["Base table " ++ apos ++ "absent" ++ apos ++
         " does not exist in schema"],
       warnings := [], sql := none, semantic_score := none } :
        ValidationResult).is_valid = true :=
  sql_present_iff_valid demoVV missingBaseView2 _ (by decide)

/-- A successful deduplication run is stable under re-running with any
seen-set containing no signature beyond the original one: every kept
view's signature was fresh at its position, so a second pass drops
nothing. -/
theorem dedupGo_mono_idem :
    ∀ (xs : List ViewDefinition) (seen : List (List String × List String))
      (ys : List ViewDefinition), dedupViewsGo seen xs = some ys →
      ∀ seen2, (∀ s, seen2.contains s = true → seen.contains s = true) →
      dedupViewsGo seen2 ys = some ys := by
  intro xs
  induction xs with
  | nil =>
    intro seen ys h seen2 hmono
    simp only [dedupViewsGo] at h
    cases h
    rfl
  | cons v rest ih =>
    intro seen ys h seen2 hmono
    rw [dedupViewsGo] at h
    split at h
    · exact absurd h (by simp)
    next s hsig =>
      split at h
      next hseen =>
        exact ih seen ys h seen2 hmono
      next hseen =>
        rw [Option.map_eq_some'] at h
        obtain ⟨ys', hrest, hcons⟩ := h
        subst hcons
        have h2 : seen2.contains s = false := by
          cases hc : seen2.contains s with
          | false => rfl
          | true => exact absurd (hmono s hc) hseen
        have hmono2 : ∀ s', (s :: seen2).contains s' = true →
            (s :: seen).contains s' = true := by
          intro s' hs'
          simp only [List.contains_cons, Bool.or_eq_true] at hs' ⊢
          cases hs' with
          | inl he => exact Or.inl he
          | inr hm => exact Or.inr (hmono s' hm)
        simp only [dedupViewsGo, hsig, h2, Bool.false_eq_true, if_false]
        rw [ih (s :: seen) ys' hrest (s :: seen2) hmono2]
        rfl

/-- The deduplication loop keeps exactly the first occurrence of each
signature: its seen-set of kept signatures has the same membership as
the set of all previously scanned signatures. -/
theorem dedupGo_keepFirst :
    ∀ (xs : List ViewDefinition) (seen : List (List String × List String))
      (pre : List (Option (List String × List String))) (ys : List ViewDefinition),
      dedupViewsGo seen xs = some ys →
      (∀ s, pre.contains (some s) = seen.contains s) →
      keepFirstBySig pre xs = ys := by
  intro xs
  induction xs with
  | nil =>
    intro seen pre ys h hinv
    simp only [dedupViewsGo] at h
    cases h
    rfl
  | cons v rest ih =>
    intro seen pre ys h hinv
    rw [dedupViewsGo] at h
    split at h
    · exact absurd h (by simp)
    next s hsig =>
      split at h
      next hseen =>
        simp only [keepFirstBySig, hsig, hinv, hseen, if_true]
        exact ih seen pre ys h hinv
      next hseen =>
        rw [Option.map_eq_some'] at h
        obtain ⟨ys', hrest, hcons⟩ := h
        subst hcons
        have h2 : seen.contains s = false := by
          cases hc : seen.contains s with
          | false => rfl
          | true => exact absurd hc hseen
        have hinv2 : ∀ s', ((some s :: pre).contains (some s')) =
            ((s :: seen).contains s') := by
          intro s'
          simp only [List.contains_cons, hinv]
          rfl
        simp only [keepFirstBySig, hsig, hinv, h2, Bool.false_eq_true, if_false]
        rw [ih (s :: seen) (some s :: pre) ys' hrest hinv2]

/-- Claim C8: deduplication is idempotent — applied to its own output it
returns that output unchanged — and the output is exactly the first
occurrence, in original order, of each distinct
(table-set, sorted-select-list) signature. -/
theorem deduplicate_idempotent_first_occurrence
    (xs ys : List ViewDefinition) (h : deduplicate_views xs = some ys) :
    deduplicate_views ys = some ys ∧ ys = keepFirstBySig [] xs := by
  constructor
  · exact dedupGo_mono_idem xs [] ys h [] (fun s hs => hs)
  · exact (dedupGo_keepFirst xs [] [] ys h (fun s => rfl)).symm

/-- Witness for claim C8 on the spec's `[A, B, A']` shape: the first and
third views share a signature, deduplication keeps `[A, B]`, a second
run removes nothing, and the output matches first-occurrence
filtering. -/
theorem deduplicate_idempotent_first_occurrence_witness :
    deduplicate_views [dupViewA, dupViewB] = some [dupViewA, dupViewB] ∧
    [dupViewA, dupViewB] = keepFirstBySig [] [dupViewA, dupViewB, dupViewA2] :=
  deduplicate_idempotent_first_occurrence [dupViewA, dupViewB, dupViewA2]
    [dupViewA, dupViewB] (by decide)

/-- Looking up the upserted key finds the new data. -/
theorem find_upsertEdge_self (es : List ((String × String) × EdgeData))
    (k : String × String) (d : EdgeData) :
    (upsertEdge k d es).find? (fun e => e.1 == k) = some (k, d) := by
  induction es with
  | nil => simp [upsertEdge, List.find?]
  | cons e es ih =>
    by_cases h : e.1 = k
    · simp [upsertEdge, h, List.find?]
    · have hb : (e.1 == k) = false := by simp [h]
      simp [upsertEdge, h, List.find?, hb, ih]

/-- Upserting one key leaves every other key's lookup unchanged. -/
theorem find_upsertEdge_ne (es : List ((String × String) × EdgeData))
    (k k' : String × String) (d : EdgeData) (hne : k' ≠ k) :
    (upsertEdge k d es).find? (fun e => e.1 == k') =
      es.find? (fun e => e.1 == k') := by
  have hbk : (k == k') = false := by simp [Ne.symm hne]
  induction es with
  | nil => simp [upsertEdge, List.find?, hbk]
  | cons e es ih =>
    by_cases h : e.1 = k
    · have hb : (e.1 == k') = false := by
        rw [h]
        simpa using Ne.symm hne
      simp [upsertEdge, h, List.find?, hbk, hb, ih]
    · by_cases h2 : e.1 = k'
      · have hb : (e.1 == k') = true := by simp [h2]
        simp [upsertEdge, h, List.find?, hb]
      · have hb : (e.1 == k') = false := by simp [h2]
        simp [upsertEdge, h, List.find?, hb, ih]

/-- `add_edge` stores the given data at its ordered pair. -/
theorem getEdgeData_addEdge_self (g : DiGraph) (u v : String) (d : EdgeData) :
    (g.addEdge u v d).getEdgeData u v = some d := by
  simp only [DiGraph.getEdgeData, DiGraph.addEdge]
  rw [find_upsertEdge_self]
  rfl

/-- `add_edge` leaves the data of every other ordered pair unchanged. -/
theorem getEdgeData_addEdge_ne (g : DiGraph) (u v u' v' : String) (d : EdgeData)
    (h : (u', v') ≠ (u, v)) :
    (g.addEdge u v d).getEdgeData u' v' = g.getEdgeData u' v' := by
  simp only [DiGraph.getEdgeData, DiGraph.addEdge]
  rw [find_upsertEdge_ne]
  exact h

/-- `add_edge` never removes an existing edge. -/
theorem hasEdge_addEdge_of (g : DiGraph) (u v u' v' : String) (d : EdgeData)
    (h : g.hasEdge u' v' = true) : (g.addEdge u v d).hasEdge u' v' = true := by
  by_cases he : (u', v') = (u, v)
  · cases he
    simp [DiGraph.hasEdge, getEdgeData_addEdge_self]
  · simp only [DiGraph.hasEdge] at h ⊢
    rw [getEdgeData_addEdge_ne g u v u' v' d he]
    exact h

/-- Dictionary insert-or-replace stores the value at its key. -/
theorem dictGet_dictInsert_self (tabs : List (String × Table)) (k : String)
    (t : Table) : dictGet (dictInsert k t tabs) k = some t := by
  induction tabs with
  | nil => simp [dictInsert, dictGet, List.find?]
  | cons e es ih =>
    by_cases h : e.1 = k
    · simp [dictInsert, dictGet, h, List.find?]
    · have hb : (e.1 == k) = false := by simp [h]
      simp only [dictInsert, h, if_false] at *
      simp only [dictGet, List.find?, hb] at ih ⊢
      exact ih

/-- Replacing the first predicate match keeps it the first match when
the replacement preserves the predicate. -/
theorem find_mapFirst (p : Column → Bool) (f : Column → Column)
    (hp : ∀ x, p (f x) = p x) :
    ∀ (cols : List Column) (col : Column), cols.find? p = some col →
      (mapFirst p f cols).find? p = some (f col) := by
  intro cols
  induction cols with
  | nil => intro col h; simp [List.find?] at h
  | cons c cs ih =>
    intro col h
    cases hc : p c with
    | true =>
      rw [List.find?_cons_of_pos _ hc] at h
      cases h
      simp only [mapFirst, hc, if_true]
      rw [List.find?_cons_of_pos]
      rw [hp]
      exact hc
    | false =>
      rw [List.find?_cons_of_neg] at h
      · simp only [mapFirst, hc, Bool.false_eq_true, if_false]
        rw [List.find?_cons_of_neg]
        · exact ih col h
        · simp [hc]
      · simp [hc]

/-- After marking, the originating column is found with its foreign-key
flag set and the reference recorded. -/
theorem get_column_markFK (t : Table) (cn rt rc : String) (c : Column)
    (h : t.get_column cn = some c) :
    (markFKColumn t cn rt rc).get_column cn =
      some { c with is_foreign_key := true, references := some (rt, rc) } := by
  simp only [Table.get_column, markFKColumn] at h ⊢
  exact find_mapFirst (fun c => strLower c.name == strLower cn)
    (fun c => { c with is_foreign_key := true, references := some (rt, rc) })
    (fun x => rfl) t.columns c h

/-- Claim C2, amended: one foreign-key declaration is dropped — tables
and graph unchanged, one warning recorded — exactly when a field is
missing, the referenced table is not a schema key, or the originating
column is absent from its table; when those three checks pass the
originating column is marked (with the possibly dangling reference
recorded) and both edges are added, with the referenced column's
existence never consulted; and schema construction never raises on a
document with a nonempty tables array. -/
theorem fk_step_characterization (st : ParseState) (tname : String) (fk : RawFK) :
    ((fk.column = "" ∨ fk.references_table = "" ∨ fk.references_column = "" ∨
      dictHasKey st.tables fk.references_table = false ∨
      (∀ t, dictGet st.tables tname = some t → t.get_column fk.column = none)) →
      (processFK st tname fk).tables = st.tables ∧
      (processFK st tname fk).graph = st.graph) ∧
    (∀ t c, fk.column ≠ "" → fk.references_table ≠ "" → fk.references_column ≠ "" →
      dictHasKey st.tables fk.references_table = true →
      dictGet st.tables tname = some t →
      t.get_column fk.column = some c →
      (processFK st tname fk).graph.hasEdge tname fk.references_table = true ∧
      (processFK st tname fk).graph.hasEdge fk.references_table tname = true ∧
      ((dictGet (processFK st tname fk).tables tname).bind
        (fun t2 => t2.get_column fk.column)) =
        some { c with
               is_foreign_key := true,
               references := some (fk.references_table, fk.references_column) } ∧
      (processFK st tname fk).warnings = st.warnings) ∧
    ((fk.column = "" ∨ fk.references_table = "" ∨ fk.references_column = "" ∨
      dictHasKey st.tables fk.references_table = false ∨
      (∃ t, dictGet st.tables tname = some t ∧ t.get_column fk.column = none)) →
      ∃ w, (processFK st tname fk).warnings = st.warnings ++ [w]) ∧
    (∀ doc : RawSchema, doc.tables ≠ [] →
      ∃ sp, SchemaParser.parse doc = Except.ok sp) := by
  refine ⟨?_, ?_, ?_, ?_⟩
  · intro hdrop
    cases he : (fk.column == "" || fk.references_table == "" ||
        fk.references_column == "") with
    | true => simp [processFK, he]
    | false =>
      have hb : fk.column ≠ "" ∧ fk.references_table ≠ "" ∧
          fk.references_column ≠ "" := by
        simpa [Bool.or_eq_false_iff, beq_eq_false_iff_ne, and_assoc] using he
      cases hkey : dictHasKey st.tables fk.references_table with
      | false => simp [processFK, he, hkey]
      | true =>
        cases hget : dictGet st.tables tname with
        | none => simp [processFK, he, hkey, hget]
        | some t =>
          have hcol : t.get_column fk.column = none := by
            rcases hdrop with h | h | h | h | h
            · exact absurd h hb.1
            · exact absurd h hb.2.1
            · exact absurd h hb.2.2
            · rw [hkey] at h; exact absurd h (by simp)
            · exact h t hget
          simp [processFK, he, hkey, hget, hcol]
  · intro t c h1 h2 h3 hkey hget hcol
    have he : (fk.column == "" || fk.references_table == "" ||
        fk.references_column == "") = false := by
      simp [Bool.or_eq_false_iff, beq_eq_false_iff_ne, h1, h2, h3]
    simp only [processFK, he, Bool.false_eq_true, if_false, hkey, Bool.not_true,
      hget, hcol]
    refine ⟨?_, ?_, ?_, by trivial⟩
    · have hinner : ((st.graph.addEdge tname fk.references_table
          ⟨fk.column, fk.references_column, "forward"⟩).hasEdge
            tname fk.references_table) = true := by
        simp [DiGraph.hasEdge, getEdgeData_addEdge_self]
      exact hasEdge_addEdge_of _ _ _ _ _ _ hinner
    · simp [DiGraph.hasEdge, getEdgeData_addEdge_self]
    · rw [dictGet_dictInsert_self]
      exact get_column_markFK t fk.column fk.references_table
        fk.references_column c hcol
  · intro hdrop
    cases he : (fk.column == "" || fk.references_table == "" ||
        fk.references_column == "") with
    | true =>
      exact ⟨"Incomplete foreign key definition in table " ++ tname,
        by simp [processFK, he]⟩
    | false =>
      have hb : fk.column ≠ "" ∧ fk.references_table ≠ "" ∧
          fk.references_column ≠ "" := by
        simpa [Bool.or_eq_false_iff, beq_eq_false_iff_ne, and_assoc] using he
      cases hkey : dictHasKey st.tables fk.references_table with
      | false =>
        exact ⟨"Foreign key in " ++ tname ++ "." ++ fk.column ++
          " references non-existent table: " ++ fk.references_table,
          by simp [processFK, he, hkey]⟩
      | true =>
        rcases hdrop with h | h | h | h | h
        · exact absurd h hb.1
        · exact absurd h hb.2.1
        · exact absurd h hb.2.2
        · rw [hkey] at h; exact absurd h (by simp)
        · obtain ⟨t, hget, hcol⟩ := h
          exact ⟨"Foreign key references non-existent column: " ++
            tname ++ "." ++ fk.column,
            by simp [processFK, he, hkey, hget, hcol]⟩
  · intro doc hne
    have hb : doc.tables.isEmpty = false := by
      cases hd : doc.tables with
      | nil => exact absurd hd hne
      | cons a l => rfl
    cases hp : SchemaParser.parse doc with
    | error e =>
      exfalso
      unfold SchemaParser.parse at hp
      rw [hb] at hp
      simp at hp
    | ok sp => exact ⟨sp, rfl⟩

/-- Claim C4, amended: for an accepted foreign key between two distinct
tables the graph holds the forward-tagged edge (dependent → referenced,
carrying the originating and referenced column names) and the
reverse-tagged edge immediately after the step, and later steps never
remove edges; but the graph is simple — one edge per ordered table
pair, later declarations overwriting earlier data — so a
self-referencing foreign key leaves a single self-loop holding only the
reverse record. -/
theorem fk_step_edge_directions (st : ParseState) (tname : String) (fk : RawFK)
    (t : Table) (c : Column)
    (h1 : fk.column ≠ "") (h2 : fk.references_table ≠ "")
    (h3 : fk.references_column ≠ "")
    (hkey : dictHasKey st.tables fk.references_table = true)
    (hget : dictGet st.tables tname = some t)
    (hcol : t.get_column fk.column = some c) :
    (tname ≠ fk.references_table →
      (processFK st tname fk).graph.getEdgeData tname fk.references_table =
        some { column := fk.column, references := fk.references_column,
               direction := "forward" } ∧
      (processFK st tname fk).graph.getEdgeData fk.references_table tname =
        some { column := fk.references_column, references := fk.column,
               direction := "reverse" }) ∧
    (tname = fk.references_table →
      (processFK st tname fk).graph.getEdgeData tname tname =
        some { column := fk.references_column, references := fk.column,
               direction := "reverse" }) ∧
    (∀ (st2 : ParseState) (tn2 : String) (fk2 : RawFK) (u v : String),
      st2.graph.hasEdge u v = true →
      (processFK st2 tn2 fk2).graph.hasEdge u v = true) := by
  have he : (fk.column == "" || fk.references_table == "" ||
      fk.references_column == "") = false := by
    simp [Bool.or_eq_false_iff, beq_eq_false_iff_ne, h1, h2, h3]
  refine ⟨?_, ?_, ?_⟩
  · intro hne
    simp only [processFK, he, Bool.false_eq_true, if_false, hkey, Bool.not_true,
      hget, hcol]
    constructor
    · rw [getEdgeData_addEdge_ne]
      · exact getEdgeData_addEdge_self _ _ _ _
      · intro hpair
        rw [Prod.mk.injEq] at hpair
        exact hne hpair.1
    · exact getEdgeData_addEdge_self _ _ _ _
  · intro heq
    subst heq
    simp only [processFK, he, Bool.false_eq_true, if_false, hkey, Bool.not_true,
      hget, hcol]
    exact getEdgeData_addEdge_self _ _ _ _
  · intro st2 tn2 fk2 u v h
    unfold processFK
    split
    · exact h
    · split
      · exact h
      · split
        · exact h
        · split
          · exact h
          · exact hasEdge_addEdge_of _ _ _ _ _ _
              (hasEdge_addEdge_of _ _ _ _ _ _ h)

/-- Witness for claim C2 at a concrete accepted foreign key whose
referenced column `x` does not exist: edges added, column marked, no
warning. -/
theorem fk_step_characterization_witness :
    (processFK ⟨[("t", ⟨"t", [⟨"c", "int", "", false, false, none⟩], [], ""⟩)],
        ⟨[]⟩, []⟩ "t" ⟨"c", "t", "x"⟩).graph.hasEdge "t" "t" = true ∧
    (processFK ⟨[("t", ⟨"t", [⟨"c", "int", "", false, false, none⟩], [], ""⟩)],
        ⟨[]⟩, []⟩ "t" ⟨"c", "t", "x"⟩).graph.hasEdge "t" "t" = true ∧
    ((dictGet (processFK ⟨[("t", ⟨"t", [⟨"c", "int", "", false, false, none⟩],
        [], ""⟩)], ⟨[]⟩, []⟩ "t" ⟨"c", "t", "x"⟩).tables "t").bind
      (fun t2 => t2.get_column "c")) =
      some ⟨"c", "int", "", false, true, some ("t", "x")⟩ ∧
    (processFK ⟨[("t", ⟨"t", [⟨"c", "int", "", false, false, none⟩], [], ""⟩)],
        ⟨[]⟩, []⟩ "t" ⟨"c", "t", "x"⟩).warnings = [] :=
  (fk_step_characterization
      ⟨[("t", ⟨"t", [⟨"c", "int", "", false, false, none⟩], [], ""⟩)], ⟨[]⟩, []⟩
      "t" ⟨"c", "t", "x"⟩).2.1
    ⟨"t", [⟨"c", "int", "", false, false, none⟩], [], ""⟩
    ⟨"c", "int", "", false, false, none⟩
    (by decide) (by decide) (by decide) (by rfl) (by rfl) (by rfl)

/-- Witness for claim C4 at a concrete two-table foreign key: both
directed edges present with their direction tags and column data. -/
theorem fk_step_edge_directions_witness :
    (processFK ⟨[("a", ⟨"a", [⟨"c", "int", "", false, false, none⟩], [], ""⟩),
        ("b", ⟨"b", [], [], ""⟩)], ⟨[]⟩, []⟩ "a"
        ⟨"c", "b", "x"⟩).graph.getEdgeData "a" "b" =
      some { column := "c", references := "x", direction := "forward" } ∧
    (processFK ⟨[("a", ⟨"a", [⟨"c", "int", "", false, false, none⟩], [], ""⟩),
        ("b", ⟨"b", [], [], ""⟩)], ⟨[]⟩, []⟩ "a"
        ⟨"c", "b", "x"⟩).graph.getEdgeData "b" "a" =
      some { column := "x", references := "c", direction := "reverse" } :=
  (fk_step_edge_directions
      ⟨[("a", ⟨"a", [⟨"c", "int", "", false, false, none⟩], [], ""⟩),
        ("b", ⟨"b", [], [], ""⟩)], ⟨[]⟩, []⟩ "a" ⟨"c", "b", "x"⟩
      ⟨"a", [⟨"c", "int", "", false, false, none⟩], [], ""⟩
      ⟨"c", "int", "", false, false, none⟩
      (by decide) (by decide) (by decide) (by rfl) (by rfl) (by rfl)).1
    (by decide)

/-- A successful search in a list prefix survives appending. -/
theorem find?_append_left {α : Type} (p : α → Bool) (l1 l2 : List α) (e : α)
    (h : l1.find? p = some e) : (l1 ++ l2).find? p = some e := by
  induction l1 with
  | nil => simp [List.find?] at h
  | cons x xs ih =>
    cases hp : p x with
    | true =>
      rw [List.find?_cons_of_pos _ hp] at h
      cases h
      rw [List.cons_append, List.find?_cons_of_pos _ hp]
    | false =>
      rw [List.find?_cons_of_neg] at h
      · rw [List.cons_append, List.find?_cons_of_neg]
        · exact ih h
        · simp [hp]
      · simp [hp]

/-- Expansion appends entries, so earlier search results persist. -/
theorem find?_expandReach (g : DiGraph) (acc : List ReachEntry)
    (p : ReachEntry → Bool) (e : ReachEntry) (h : acc.find? p = some e) :
    (expandReach g acc).find? p = some e := by
  unfold expandReach
  exact find?_append_left p acc _ e h

/-- Iterated expansion preserves earlier search results. -/
theorem find?_iterReach (g : DiGraph) (n : Nat) (acc : List ReachEntry)
    (p : ReachEntry → Bool) (e : ReachEntry) (h : acc.find? p = some e) :
    (iterReach g n acc).find? p = some e := by
  induction n generalizing acc with
  | zero => exact h
  | succ m ih =>
    unfold iterReach
    exact ih (expandReach g acc) (find?_expandReach g acc p e h)

/-- Path search from a node to itself yields the singleton path, as
`nx.shortest_path(G, s, s)` returns `[s]`. -/
theorem shortestPath_self (g : DiGraph) (t : String) :
    shortestPath g t t = some [t] := by
  unfold shortestPath reachTable
  rw [find?_iterReach g _ [(t, [t])] _ (t, [t])]
  · rfl
  · simp [List.find?]

/-- Claim C3, amended: the join-path lookup returns the empty path
exactly for two identical name strings (regardless of FK
relationships); for two distinct strings that denote the same table
case-insensitively it returns the no-path signal — either the table is
absent from the relationship graph, or the normalized singleton path
collapses to an empty hop list which the source converts to the no-path
signal. -/
theorem join_path_self_and_case_variants :
    (∀ (sp : SchemaParser) (a : String), sp.get_join_path a a = some []) ∧
    (∀ (sp : SchemaParser) (a b : String), a ≠ b → strLower a = strLower b →
      sp.get_join_path a b = none) := by
  constructor
  · intro sp a
    simp [SchemaParser.get_join_path]
  · intro sp a b hne hlow
    have hbeq : (a == b) = false := by simp [hne]
    simp only [SchemaParser.get_join_path, hbeq, Bool.false_eq_true, if_false]
    have hmatch : sp.lastNameMatch a = sp.lastNameMatch b := by
      simp only [SchemaParser.lastNameMatch, hlow]
    rw [hmatch]
    cases hm : sp.lastNameMatch b with
    | none => rfl
    | some t =>
      cases hn : sp.relationship_graph.hasNode t with
      | false =>
        simp only [hn, Bool.not_false, Bool.or_self, if_true]
      | true =>
        simp only [hn, Bool.not_true, Bool.or_self, Bool.false_eq_true, if_false]
        rw [shortestPath_self]
        rfl

/-- Witness for claim C3: exact self-lookup gives the empty path, a
case-variant pair naming the same table gives the no-path signal. -/
theorem join_path_self_and_case_variants_witness :
    demoSP.get_join_path "orders" "orders" = some [] ∧
    selfFkSP.get_join_path "Employees" "employees" = none :=
  ⟨join_path_self_and_case_variants.1 demoSP "orders",
   join_path_self_and_case_variants.2 selfFkSP "Employees" "employees"
     (by decide) (by decide)⟩

/-- A valid path extended along one more edge stays valid. -/
theorem chainOK_append_one (g : DiGraph) (v : String) :
    ∀ (p : List String) (x : String), chainOK g p → p.getLast? = some x →
      edgeRel g x v → chainOK g (p ++ [v]) := by
  intro p
  induction p with
  | nil => intro x hc hl he; simp at hl
  | cons a rest ih =>
    intro x hc hl he
    cases rest with
    | nil =>
      simp only [List.getLast?_singleton, Option.some.injEq] at hl
      subst hl
      exact ⟨he, trivial⟩
    | cons b rest2 =>
      obtain ⟨h1, h2⟩ := hc
      rw [List.getLast?_cons_cons] at hl
      exact ⟨h1, ih x h2 hl he⟩

/-- One expansion round preserves entry well-formedness: each new entry
extends a recorded path along one edge. -/
theorem entryOK_expandReach (g : DiGraph) (t1 : String) (acc : List ReachEntry)
    (hacc : ∀ e ∈ acc, entryOK g t1 e) :
    ∀ e ∈ expandReach g acc, entryOK g t1 e := by
  intro e he
  unfold expandReach at he
  rw [List.mem_append] at he
  cases he with
  | inl h => exact hacc e h
  | inr h =>
    rw [List.mem_filterMap] at h
    obtain ⟨v, hv, hfv⟩ := h
    by_cases hany : acc.any (fun e2 => e2.1 == v) = true
    · rw [if_pos hany] at hfv
      simp at hfv
    · rw [if_neg hany] at hfv
      cases hu : acc.find? (fun e2 => g.hasEdge e2.1 v) with
      | none => rw [hu] at hfv; simp at hfv
      | some u =>
        rw [hu] at hfv
        cases hfv
        have humem : u ∈ acc := List.mem_of_find?_eq_some hu
        have hedge0 := List.find?_some hu
        have hedge : g.hasEdge u.1 v = true := hedge0
        obtain ⟨hhd, hlast, hchain⟩ := hacc u humem
        cases hu2 : u.2 with
        | nil => rw [hu2] at hhd; simp at hhd
        | cons c cs =>
          rw [hu2] at hhd hlast hchain
          simp only [List.head?_cons, Option.some.injEq] at hhd
          refine ⟨?_, ?_, ?_⟩
          · simp only [List.cons_append, List.head?_cons, hhd]
          · simp only [List.getLast?_concat]
          · exact chainOK_append_one g v (c :: cs) u.1 hchain hlast hedge

/-- Iterated expansion preserves entry well-formedness. -/
theorem entryOK_iterReach (g : DiGraph) (t1 : String) (n : Nat)
    (acc : List ReachEntry) (hacc : ∀ e ∈ acc, entryOK g t1 e) :
    ∀ e ∈ iterReach g n acc, entryOK g t1 e := by
  induction n generalizing acc with
  | zero => exact hacc
  | succ m ih =>
    exact ih (expandReach g acc) (entryOK_expandReach g t1 acc hacc)

/-- Every entry of the saturated reach table records a valid edge path
from the start node. -/
theorem entryOK_reachTable (g : DiGraph) (t1 : String) :
    ∀ e ∈ reachTable g t1, entryOK g t1 e := by
  unfold reachTable
  refine entryOK_iterReach g t1 _ _ ?_
  intro e he
  simp only [List.mem_singleton] at he
  subst he
  exact ⟨rfl, rfl, trivial⟩

/-- A valid edge path witnesses reflexive-transitive reachability
between its endpoints. -/
theorem chain_RTG (g : DiGraph) :
    ∀ (p : List String) (a b : String), p.head? = some a → p.getLast? = some b →
      chainOK g p → Relation.ReflTransGen (edgeRel g) a b := by
  intro p
  induction p with
  | nil => intro a b ha hb hc; simp at ha
  | cons c rest ih =>
    intro a b ha hb hc
    simp only [List.head?_cons, Option.some.injEq] at ha
    subst ha
    cases rest with
    | nil =>
      simp only [List.getLast?_singleton, Option.some.injEq] at hb
      subst hb
      exact Relation.ReflTransGen.refl
    | cons d rest2 =>
      obtain ⟨h1, h2⟩ := hc
      rw [List.getLast?_cons_cons] at hb
      exact Relation.ReflTransGen.head h1 (ih d b rfl hb h2)

/-- First-occurrence deduplication produces a duplicate-free list whose
elements avoid the seen accumulator. -/
theorem dedupKeepFirstAux_nodup : ∀ (l seen : List String),
    (dedupKeepFirstAux seen l).Nodup ∧
    ∀ x ∈ dedupKeepFirstAux seen l, seen.contains x = false := by
  intro l
  induction l with
  | nil => intro seen; exact ⟨List.nodup_nil, by simp [dedupKeepFirstAux]⟩
  | cons x xs ih =>
    intro seen
    by_cases hx : seen.contains x = true
    · simp only [dedupKeepFirstAux, hx, if_true]
      exact ih seen
    · have hx' : seen.contains x = false := by
        cases h2 : seen.contains x with
        | false => rfl
        | true => exact absurd h2 hx
      simp only [dedupKeepFirstAux, hx', Bool.false_eq_true, if_false]
      refine ⟨?_, ?_⟩
      · rw [List.nodup_cons]
        refine ⟨?_, (ih (x :: seen)).1⟩
        intro hmem
        have hc := (ih (x :: seen)).2 x hmem
        simp [List.contains_cons] at hc
      · intro y hy
        rcases List.mem_cons.mp hy with h | h
        · subst h
          exact hx'
        · have hc := (ih (x :: seen)).2 y h
          simp only [List.contains_cons, Bool.or_eq_false_iff] at hc
          exact hc.2

/-- The node list of a graph is duplicate-free. -/
theorem candidates_nodup (g : DiGraph) : g.candidates.Nodup :=
  (dedupKeepFirstAux_nodup g.nodesList []).1

/-- When a partial map tags each output with its input, the outputs'
keys form a sublist of the inputs. -/
theorem map_fst_filterMap_sublist (l : List String) (f : String → Option ReachEntry)
    (hf : ∀ v e, f v = some e → e.1 = v) :
    ((l.filterMap f).map (·.1)).Sublist l := by
  induction l with
  | nil => simp
  | cons v vs ih =>
    cases hfv : f v with
    | none =>
      simp only [List.filterMap_cons, hfv]
      exact ih.cons v
    | some e =>
      simp only [List.filterMap_cons, hfv, List.map_cons]
      rw [hf v e hfv]
      exact ih.cons₂ v

/-- A produced expansion entry is keyed by the scanned node, which was
not yet recorded. -/
theorem expandBatch_key (g : DiGraph) (acc : List ReachEntry) :
    ∀ (v : String) (e : ReachEntry),
      (if acc.any (fun e2 => e2.1 == v) then none
       else match acc.find? (fun e2 => g.hasEdge e2.1 v) with
        | some u => some (v, u.2 ++ [v])
        | none => none) = some e →
      e.1 = v ∧ acc.any (fun e2 => e2.1 == v) = false := by
  intro v e hfv
  by_cases hany : acc.any (fun e2 => e2.1 == v) = true
  · rw [if_pos hany] at hfv
    simp at hfv
  · have hany' : acc.any (fun e2 => e2.1 == v) = false := by
      cases h2 : acc.any (fun e2 => e2.1 == v) with
      | false => rfl
      | true => exact absurd h2 hany
    rw [if_neg hany] at hfv
    cases hu : acc.find? (fun e2 => g.hasEdge e2.1 v) with
    | none => rw [hu] at hfv; simp at hfv
    | some u =>
      rw [hu] at hfv
      cases hfv
      exact ⟨rfl, hany'⟩

/-- Expansion keeps the recorded keys duplicate-free. -/
theorem keys_expandReach_nodup (g : DiGraph) (acc : List ReachEntry)
    (h : (acc.map (·.1)).Nodup) :
    ((expandReach g acc).map (·.1)).Nodup := by
  unfold expandReach
  rw [List.map_append, List.nodup_append]
  refine ⟨h, ?_, ?_⟩
  · refine List.Sublist.nodup ?_ (candidates_nodup g)
    exact map_fst_filterMap_sublist _ _ (fun v e hfv => (expandBatch_key g acc v e hfv).1)
  · intro x hx1 hx2
    rw [List.mem_map] at hx2
    obtain ⟨e, he, hek⟩ := hx2
    rw [List.mem_filterMap] at he
    obtain ⟨v, hv, hfv⟩ := he
    obtain ⟨hkey, hany⟩ := expandBatch_key g acc v e hfv
    rw [List.mem_map] at hx1
    obtain ⟨a, ha, hak⟩ := hx1
    have : acc.any (fun e2 => e2.1 == v) = true := by
      rw [List.any_eq_true]
      refine ⟨a, ha, ?_⟩
      rw [hak]
      rw [← hek, hkey]
      simp
    rw [this] at hany
    exact absurd hany (by simp)

/-- Expansion only ever records graph nodes beyond the initial keys. -/
theorem keys_expandReach_subset (g : DiGraph) (acc : List ReachEntry) :
    ∀ x ∈ (expandReach g acc).map (·.1),
      x ∈ acc.map (·.1) ∨ x ∈ g.candidates := by
  intro x hx
  unfold expandReach at hx
  rw [List.map_append, List.mem_append] at hx
  cases hx with
  | inl h => exact Or.inl h
  | inr h =>
    refine Or.inr ?_
    have hsub := map_fst_filterMap_sublist g.candidates _
      (fun v e hfv => (expandBatch_key g acc v e hfv).1)
    exact hsub.subset h

/-- A fixpoint of expansion is stable under iteration. -/
theorem iterReach_of_fix (g : DiGraph) (acc : List ReachEntry)
    (h : expandReach g acc = acc) : ∀ n, iterReach g n acc = acc := by
  intro n
  induction n with
  | zero => rfl
  | succ m ih =>
    show iterReach g m (expandReach g acc) = acc
    rw [h]
    exact ih

/-- After as many rounds as there are graph nodes the expansion
saturates: each productive round strictly grows the duplicate-free key
list, which is bounded by the node count. -/
theorem expandReach_saturates (g : DiGraph) (t1 : String) :
    ∀ (m : Nat) (acc : List ReachEntry),
      (acc.map (·.1)).Nodup →
      (∀ x ∈ acc.map (·.1), x = t1 ∨ x ∈ g.candidates) →
      g.candidates.length + 1 ≤ acc.length + m →
      expandReach g (iterReach g m acc) = iterReach g m acc := by
  intro m
  induction m with
  | zero =>
    intro acc hnd hsub hlen
    show expandReach g acc = acc
    have hall : ∀ v ∈ g.candidates, acc.any (fun e2 => e2.1 == v) = true := by
      intro v hv
      by_contra hany
      have hvk : v ∉ acc.map (·.1) := by
        intro hmem
        apply hany
        rw [List.any_eq_true]
        rw [List.mem_map] at hmem
        obtain ⟨a, ha, hak⟩ := hmem
        exact ⟨a, ha, by rw [hak]; simp⟩
      have hnd2 : (v :: acc.map (·.1)).Nodup := by
        rw [List.nodup_cons]
        exact ⟨hvk, hnd⟩
      have hsub2 : (v :: acc.map (·.1)) ⊆ (t1 :: g.candidates) := by
        intro y hy
        rcases List.mem_cons.mp hy with h | h
        · subst h
          exact List.mem_cons_of_mem _ hv
        · rcases hsub y h with h2 | h2
          · subst h2
            exact List.mem_cons_self _ _
          · exact List.mem_cons_of_mem _ h2
      have hle := (hnd2.subperm hsub2).length_le
      simp only [List.length_cons, List.length_map] at hle
      omega
    unfold expandReach
    rw [List.filterMap_eq_nil_iff.mpr, List.append_nil]
    intro v hv
    rw [if_pos (hall v hv)]
  | succ m ih =>
    intro acc hnd hsub hlen
    by_cases hfix : expandReach g acc = acc
    · show expandReach g (iterReach g m (expandReach g acc)) =
        iterReach g m (expandReach g acc)
      rw [hfix, iterReach_of_fix g acc hfix m]
      exact hfix
    · show expandReach g (iterReach g m (expandReach g acc)) =
        iterReach g m (expandReach g acc)
      apply ih
      · exact keys_expandReach_nodup g acc hnd
      · intro x hx
        rcases keys_expandReach_subset g acc x hx with h | h
        · exact hsub x h
        · exact Or.inr h
      · have hbatch : (g.candidates.filterMap (fun v =>
            if acc.any (fun e2 => e2.1 == v) then none
            else match acc.find? (fun e2 => g.hasEdge e2.1 v) with
              | some u => some (v, u.2 ++ [v])
              | none => none)) ≠ [] := by
          intro hnil
          apply hfix
          unfold expandReach
          rw [hnil, List.append_nil]
        have hlen2 : acc.length + 1 ≤ (expandReach g acc).length := by
          unfold expandReach
          rw [List.length_append]
          have hpos := List.length_pos.mpr hbatch
          omega
        omega

/-- The reach table is a fixpoint of expansion. -/
theorem reachTable_fix (g : DiGraph) (t1 : String) :
    expandReach g (reachTable g t1) = reachTable g t1 := by
  unfold reachTable
  apply expandReach_saturates g t1 (g.candidates.length + 1) [(t1, [t1])]
  · simp
  · intro x hx
    simp only [List.map_cons, List.map_nil, List.mem_singleton] at hx
    exact Or.inl hx
  · simp

/-- Deduplication preserves membership. -/
theorem mem_dedupKeepFirstAux (x : String) :
    ∀ (l seen : List String), x ∈ l → seen.contains x = false →
      x ∈ dedupKeepFirstAux seen l := by
  intro l
  induction l with
  | nil => intro seen h; simp at h
  | cons y ys ih =>
    intro seen hmem hx
    by_cases hxy : x = y
    · subst hxy
      have hseen : seen.contains x = false := hx
      simp only [dedupKeepFirstAux, hseen, Bool.false_eq_true, if_false]
      exact List.mem_cons_self _ _
    · have hmem2 : x ∈ ys := by
        rcases List.mem_cons.mp hmem with h | h
        · exact absurd h hxy
        · exact h
      cases hy : seen.contains y with
      | true =>
        simp only [dedupKeepFirstAux, hy, if_true]
        exact ih seen hmem2 hx
      | false =>
        simp only [dedupKeepFirstAux, hy, Bool.false_eq_true, if_false]
        refine List.mem_cons_of_mem _ (ih (y :: seen) hmem2 ?_)
        simp only [List.contains_cons, Bool.or_eq_false_iff]
        constructor
        · simp [hxy]
        · exact hx

/-- The target of any edge is a graph node. -/
theorem mem_candidates_of_edge_target (g : DiGraph) (u v : String)
    (h : g.hasEdge u v = true) : v ∈ g.candidates := by
  unfold DiGraph.hasEdge DiGraph.getEdgeData at h
  cases hf : g.edges.find? (fun e => e.1 == (u, v)) with
  | none => rw [hf] at h; simp at h
  | some e =>
    have he : e ∈ g.edges := List.mem_of_find?_eq_some hf
    have hp := List.find?_some hf
    have hkey : e.1 = (u, v) := eq_of_beq hp
    apply mem_dedupKeepFirstAux v g.nodesList []
    · unfold DiGraph.nodesList
      rw [List.mem_append]
      right
      rw [List.mem_map]
      exact ⟨e, he, by rw [hkey]⟩
    · rfl

/-- The saturated reach table is closed under following edges: an
unrecorded edge target would make the expansion batch nonempty. -/
theorem keys_reachTable_closed (g : DiGraph) (t1 u v : String)
    (hu : u ∈ (reachTable g t1).map (·.1)) (he : g.hasEdge u v = true) :
    v ∈ (reachTable g t1).map (·.1) := by
  have hfix := reachTable_fix g t1
  by_cases hv : v ∈ (reachTable g t1).map (·.1)
  · exact hv
  · exfalso
    have hbatch : (g.candidates.filterMap (fun w =>
        if (reachTable g t1).any (fun e2 => e2.1 == w) then none
        else match (reachTable g t1).find? (fun e2 => g.hasEdge e2.1 w) with
          | some u2 => some (w, u2.2 ++ [w])
          | none => none)) = [] := by
      have hlen := congrArg List.length hfix
      unfold expandReach at hlen
      rw [List.length_append] at hlen
      apply List.eq_nil_of_length_eq_zero
      omega
    have hvcand : v ∈ g.candidates := mem_candidates_of_edge_target g u v he
    have hnone := List.filterMap_eq_nil_iff.mp hbatch v hvcand
    have hany : (reachTable g t1).any (fun e2 => e2.1 == v) = false := by
      cases ha : (reachTable g t1).any (fun e2 => e2.1 == v) with
      | false => rfl
      | true =>
        exfalso
        apply hv
        rw [List.any_eq_true] at ha
        obtain ⟨e, hemem, hbeq⟩ := ha
        rw [List.mem_map]
        exact ⟨e, hemem, eq_of_beq hbeq⟩
    rw [if_neg (by rw [hany]; exact Bool.false_ne_true)] at hnone
    have hfind : ((reachTable g t1).find? (fun e2 => g.hasEdge e2.1 v)).isSome = true := by
      rw [List.find?_isSome]
      rw [List.mem_map] at hu
      obtain ⟨a, ha, hak⟩ := hu
      refine ⟨a, ha, ?_⟩
      rw [hak]
      exact he
    cases hf : (reachTable g t1).find? (fun e2 => g.hasEdge e2.1 v) with
    | none => rw [hf] at hfind; simp at hfind
    | some u2 =>
      rw [hf] at hnone
      simp at hnone

/-- The start node is always recorded. -/
theorem start_mem_reachTable (g : DiGraph) (t1 : String) :
    t1 ∈ (reachTable g t1).map (·.1) := by
  have hf : (reachTable g t1).find? (fun e => e.1 == t1) = some (t1, [t1]) := by
    unfold reachTable
    apply find?_iterReach
    simp [List.find?]
  rw [List.mem_map]
  exact ⟨(t1, [t1]), List.mem_of_find?_eq_some hf, rfl⟩

/-- Completeness: every node reachable from the start is recorded in
the saturated reach table. -/
theorem RTG_mem_reachTable (g : DiGraph) (t1 x : String)
    (h : Relation.ReflTransGen (edgeRel g) t1 x) :
    x ∈ (reachTable g t1).map (·.1) := by
  induction h with
  | refl => exact start_mem_reachTable g t1
  | tail hab hbc ih => exact keys_reachTable_closed g t1 _ _ ih hbc

/-- Soundness: a returned path starts at the source, ends at the
target, and follows edges. -/
theorem shortestPath_spec (g : DiGraph) (t1 t2 : String) (p : List String)
    (h : shortestPath g t1 t2 = some p) :
    p.head? = some t1 ∧ p.getLast? = some t2 ∧ chainOK g p := by
  unfold shortestPath at h
  rw [Option.map_eq_some'] at h
  obtain ⟨e, hf, hep⟩ := h
  have hmem : e ∈ reachTable g t1 := List.mem_of_find?_eq_some hf
  have hb0 := List.find?_some hf
  have hb : (e.1 == t2) = true := by exact hb0
  have hkey : e.1 = t2 := eq_of_beq hb
  obtain ⟨hh, hl, hc⟩ := entryOK_reachTable g t1 e hmem
  subst hep
  rw [hkey] at hl
  exact ⟨hh, hl, hc⟩

/-- Completeness: the path search succeeds for every reachable
target. -/
theorem shortestPath_isSome_of_RTG (g : DiGraph) (t1 t2 : String)
    (h : Relation.ReflTransGen (edgeRel g) t1 t2) :
    (shortestPath g t1 t2).isSome = true := by
  have hmem := RTG_mem_reachTable g t1 t2 h
  rw [List.mem_map] at hmem
  obtain ⟨e, he, hek⟩ := hmem
  unfold shortestPath
  cases hf : (reachTable g t1).find? (fun e2 => e2.1 == t2) with
  | none =>
    exfalso
    have : ((reachTable g t1).find? (fun e2 => e2.1 == t2)).isSome = true := by
      rw [List.find?_isSome]
      exact ⟨e, he, by rw [hek]; exact beq_self_eq_true t2⟩
    rw [hf] at this
    simp at this
  | some u => rfl

/-- Hop construction on a two-node-or-longer valid path is nonempty:
the first consecutive pair has edge data. -/
theorem buildHops_ne_nil (g : DiGraph) (a b : String) (rest : List String)
    (h : edgeRel g a b) : buildHops g (a :: b :: rest) ≠ [] := by
  unfold buildHops
  have hd : (g.getEdgeData a b).isSome = true := h
  cases hgd : g.getEdgeData a b with
  | none => rw [hgd] at hd; simp at hd
  | some d =>
    simp only [hgd, List.cons_append]
    simp

/-- The inner result of `get_join_path` (path search plus hop
assembly, with the empty-hop-list-to-none conversion) succeeds exactly
for distinct endpoints connected in the relationship graph. -/
theorem joinTail_isSome_iff (g : DiGraph) (t1 t2 : String) :
    (match shortestPath g t1 t2 with
     | none => none
     | some path_nodes =>
       let join_path := buildHops g path_nodes
       if join_path.isEmpty then none else some join_path).isSome = true ↔
    (t1 ≠ t2 ∧ Relation.ReflTransGen (edgeRel g) t1 t2) := by
  by_cases heq : t1 = t2
  · subst heq
    rw [shortestPath_self]
    simp [buildHops]
  · cases hs : shortestPath g t1 t2 with
    | none =>
      simp only [Option.isSome_none, Bool.false_eq_true, false_iff]
      rintro ⟨hne, hrtg⟩
      have hss := shortestPath_isSome_of_RTG g t1 t2 hrtg
      rw [hs] at hss
      simp at hss
    | some p =>
      obtain ⟨hh, hl, hc⟩ := shortestPath_spec g t1 t2 p hs
      cases p with
      | nil => simp at hh
      | cons a rest =>
        simp only [List.head?_cons, Option.some.injEq] at hh
        subst hh
        cases rest with
        | nil =>
          simp only [List.getLast?_singleton, Option.some.injEq] at hl
          exact absurd hl heq
        | cons b rest2 =>
          obtain ⟨h1, h2⟩ := hc
          have hne := buildHops_ne_nil g a b rest2 h1
          have hie : (buildHops g (a :: b :: rest2)).isEmpty = false := by
            cases hb : buildHops g (a :: b :: rest2) with
            | nil => exact absurd hb hne
            | cons x xs => rfl
          simp only [hie, Bool.false_eq_true, if_false, Option.isSome_some,
            true_iff]
          exact ⟨heq, chain_RTG g (a :: b :: rest2) a t2 rfl hl ⟨h1, h2⟩⟩

/-- Edge membership after `add_edge`: the old edges plus the new
ordered pair. -/
theorem hasEdge_addEdge_iff (g : DiGraph) (u v u' v' : String) (d : EdgeData) :
    (g.addEdge u v d).hasEdge u' v' = true ↔
      (g.hasEdge u' v' = true ∨ (u' = u ∧ v' = v)) := by
  by_cases hp : (u', v') = (u, v)
  · rw [Prod.mk.injEq] at hp
    obtain ⟨h1, h2⟩ := hp
    subst h1
    subst h2
    simp only [DiGraph.hasEdge, getEdgeData_addEdge_self, Option.isSome_some,
      true_iff, and_self, or_true]
  · rw [DiGraph.hasEdge, getEdgeData_addEdge_ne g u v u' v' d hp]
    rw [Prod.mk.injEq] at hp
    constructor
    · intro h
      exact Or.inl h
    · intro h
      rcases h with h | h
      · exact h
      · exact absurd h hp

/-- One foreign-key step preserves symmetry of edge membership: it adds
either nothing or an ordered pair together with its converse. -/
theorem processFK_edge_symm (st : ParseState) (tname : String) (fk : RawFK)
    (h : ∀ u v, st.graph.hasEdge u v = st.graph.hasEdge v u) :
    ∀ u v, (processFK st tname fk).graph.hasEdge u v =
      (processFK st tname fk).graph.hasEdge v u := by
  intro u v
  unfold processFK
  split
  · exact h u v
  · split
    · exact h u v
    · split
      · exact h u v
      · split
        · exact h u v
        · have hiff : ∀ x y,
              (((st.graph.addEdge tname fk.references_table
                  ⟨fk.column, fk.references_column, "forward"⟩).addEdge
                  fk.references_table tname
                  ⟨fk.references_column, fk.column, "reverse"⟩).hasEdge x y = true) ↔
              (st.graph.hasEdge x y = true ∨ (x = tname ∧ y = fk.references_table) ∨
               (x = fk.references_table ∧ y = tname)) := by
            intro x y
            rw [hasEdge_addEdge_iff, hasEdge_addEdge_iff]
            constructor
            · rintro ((hg | hp) | hp)
              · exact Or.inl hg
              · exact Or.inr (Or.inl hp)
              · exact Or.inr (Or.inr hp)
            · rintro (hg | hp | hp)
              · exact Or.inl (Or.inl hg)
              · exact Or.inl (Or.inr hp)
              · exact Or.inr hp
          have hiff2 := hiff u v
          have hiff3 := hiff v u
          have hprop : ((st.graph.hasEdge u v = true ∨
              (u = tname ∧ v = fk.references_table) ∨
              (u = fk.references_table ∧ v = tname)) ↔
              (st.graph.hasEdge v u = true ∨
              (v = tname ∧ u = fk.references_table) ∨
              (v = fk.references_table ∧ u = tname))) := by
            rw [h u v]
            constructor
            · rintro (hg | ⟨ha, hb⟩ | ⟨ha, hb⟩)
              · exact Or.inl hg
              · exact Or.inr (Or.inr ⟨hb, ha⟩)
              · exact Or.inr (Or.inl ⟨hb, ha⟩)
            · rintro (hg | ⟨ha, hb⟩ | ⟨ha, hb⟩)
              · exact Or.inl hg
              · exact Or.inr (Or.inr ⟨hb, ha⟩)
              · exact Or.inr (Or.inl ⟨hb, ha⟩)
          have := (hiff2.trans hprop).trans hiff3.symm
          cases hu : ((st.graph.addEdge tname fk.references_table
              ⟨fk.column, fk.references_column, "forward"⟩).addEdge
              fk.references_table tname
              ⟨fk.references_column, fk.column, "reverse"⟩).hasEdge u v with
          | true =>
            rw [hu] at this
            exact (this.mp rfl).symm
          | false =>
            cases hv : ((st.graph.addEdge tname fk.references_table
                ⟨fk.column, fk.references_column, "forward"⟩).addEdge
                fk.references_table tname
                ⟨fk.references_column, fk.column, "reverse"⟩).hasEdge v u with
            | false => rfl
            | true =>
              rw [hu, hv] at this
              exact absurd (this.mpr rfl) (by simp)

/-- Folding the foreign keys of one table preserves edge symmetry. -/
theorem foldFK_edge_symm (tname : String) :
    ∀ (fks : List RawFK) (st : ParseState),
      (∀ u v, st.graph.hasEdge u v = st.graph.hasEdge v u) →
      ∀ u v, ((fks.foldl (fun st2 fk => processFK st2 tname fk) st)).graph.hasEdge u v =
        ((fks.foldl (fun st2 fk => processFK st2 tname fk) st)).graph.hasEdge v u := by
  intro fks
  induction fks with
  | nil => intro st h; exact h
  | cons fk rest ih =>
    intro st h
    exact ih (processFK st tname fk) (processFK_edge_symm st tname fk h)

/-- The whole second pass preserves edge symmetry. -/
theorem secondPass_edge_symm :
    ∀ (l : List (String × List RawFK)) (st : ParseState),
      (∀ u v, st.graph.hasEdge u v = st.graph.hasEdge v u) →
      ∀ u v, ((l.foldl (fun st2 (e : String × List RawFK) =>
          e.2.foldl (fun st3 fk => processFK st3 e.1 fk) st2) st)).graph.hasEdge u v =
        ((l.foldl (fun st2 (e : String × List RawFK) =>
          e.2.foldl (fun st3 fk => processFK st3 e.1 fk) st2) st)).graph.hasEdge v u := by
  intro l
  induction l with
  | nil => intro st h; exact h
  | cons e rest ih =>
    intro st h
    exact ih _ (foldFK_edge_symm e.1 e.2 st h)

/-- Any graph produced by schema parsing has symmetric edge
membership, starting from the empty graph. -/
theorem parse_edge_symm (doc : RawSchema) (sp : SchemaParser)
    (h : SchemaParser.parse doc = Except.ok sp) :
    ∀ u v, sp.relationship_graph.hasEdge u v =
      sp.relationship_graph.hasEdge v u := by
  unfold SchemaParser.parse at h
  split at h
  · exact absurd h (by simp)
  · rw [Except.ok.injEq] at h
    subst h
    intro u v
    show (secondPass ⟨(firstPass doc).1, ⟨[]⟩,
        (firstPass doc).2⟩).graph.hasEdge u v =
      (secondPass ⟨(firstPass doc).1, ⟨[]⟩,
        (firstPass doc).2⟩).graph.hasEdge v u
    unfold secondPass
    exact secondPass_edge_symm _
      ⟨(firstPass doc).1, ⟨[]⟩, (firstPass doc).2⟩ (fun _ _ => rfl) u v

/-- With symmetric edges, the inner join-path result succeeds in one
direction exactly when it succeeds in the other. -/
theorem joinTail_symm (g : DiGraph)
    (hsym : ∀ u v, g.hasEdge u v = g.hasEdge v u) (t1 t2 : String) :
    (match shortestPath g t1 t2 with
     | none => none
     | some path_nodes =>
       let join_path := buildHops g path_nodes
       if join_path.isEmpty then none else some join_path).isSome =
    (match shortestPath g t2 t1 with
     | none => none
     | some path_nodes =>
       let join_path := buildHops g path_nodes
       if join_path.isEmpty then none else some join_path).isSome := by
  have hsymm : Symmetric (edgeRel g) := by
    intro u v hedge
    unfold edgeRel at hedge ⊢
    rw [hsym v u]
    exact hedge
  have hrtg := Relation.ReflTransGen.symmetric hsymm
  have h1 := joinTail_isSome_iff g t1 t2
  have h2 := joinTail_isSome_iff g t2 t1
  have hiff : ((t1 ≠ t2 ∧ Relation.ReflTransGen (edgeRel g) t1 t2) ↔
      (t2 ≠ t1 ∧ Relation.ReflTransGen (edgeRel g) t2 t1)) := by
    constructor
    · rintro ⟨a, b⟩
      exact ⟨Ne.symm a, hrtg b⟩
    · rintro ⟨a, b⟩
      exact ⟨Ne.symm a, hrtg b⟩
  have hfinal := (h1.trans hiff).trans h2.symm
  cases hL : (match shortestPath g t1 t2 with
     | none => none
     | some path_nodes =>
       let join_path := buildHops g path_nodes
       if join_path.isEmpty then none else some join_path).isSome with
  | true =>
    rw [hL] at hfinal
    exact (hfinal.mp rfl).symm
  | false =>
    cases hR : (match shortestPath g t2 t1 with
       | none => none
       | some path_nodes =>
         let join_path := buildHops g path_nodes
         if join_path.isEmpty then none else some join_path).isSome with
    | false => rfl
    | true =>
      rw [hL, hR] at hfinal
      exact absurd (hfinal.mpr rfl) (by simp)

/-- Claim C7: over any parsed schema, join-path lookup is symmetric —
`get_join_path(A, B)` returns a path iff `get_join_path(B, A)` does.
The trivial-path case, the name normalization, the node-membership test
and the reachability search are each symmetric in the two names. -/
theorem join_path_symmetric (doc : RawSchema) (sp : SchemaParser)
    (h : SchemaParser.parse doc = Except.ok sp) (A B : String) :
    (sp.get_join_path A B).isSome = (sp.get_join_path B A).isSome := by
  have hsym := parse_edge_symm doc sp h
  unfold SchemaParser.get_join_path
  cases hab : (A == B) with
  | true =>
    have heq : A = B := eq_of_beq hab
    have hba : (B == A) = true := by
      rw [heq]
      exact beq_self_eq_true B
    simp only [hab, hba, if_true]
  | false =>
    have hba : (B == A) = false := by
      cases hba2 : (B == A) with
      | false => rfl
      | true =>
        have : B = A := eq_of_beq hba2
        rw [this] at hab
        rw [beq_self_eq_true A] at hab
        exact absurd hab (by simp)
    simp only [hab, hba, Bool.false_eq_true, if_false]
    cases hA : sp.lastNameMatch A with
    | none =>
      cases hB : sp.lastNameMatch B with
      | none => rfl
      | some t2 => rfl
    | some t1 =>
      cases hB : sp.lastNameMatch B with
      | none => rfl
      | some t2 =>
        have hor : (!sp.relationship_graph.hasNode t1 ||
            !sp.relationship_graph.hasNode t2) =
            (!sp.relationship_graph.hasNode t2 ||
            !sp.relationship_graph.hasNode t1) := Bool.or_comm _ _
        cases hcond : (!sp.relationship_graph.hasNode t1 ||
            !sp.relationship_graph.hasNode t2) with
        | true =>
          rw [hcond] at hor
          simp only [hcond, ← hor, if_true]
        | false =>
          rw [hcond] at hor
          simp only [hcond, ← hor, Bool.false_eq_true, if_false]
          exact joinTail_symm sp.relationship_graph hsym t1 t2

/-- Witness for claim C7 on the scenario schema: both directions of the
orders–customers lookup succeed. -/
theorem join_path_symmetric_witness :
    (demoSP.get_join_path "orders" "customers").isSome =
      (demoSP.get_join_path "customers" "orders").isSome :=
  join_path_symmetric demoDoc demoSP (by rfl) "orders" "customers"
